import Mathlib

/-!
Verification of the generator-based circuit codec (CircuitGenEncoder).

The codec is embedded shallowly.  Python floats are idealized as elements of
a linear ordered field with a floor (so theorems can be stated over ℝ with
the genuine π, while witnesses evaluate over ℚ); Python strings are lists of
characters; the tequila circuit objects are embedded through the
CircuitAdapter boundary the spec describes: a gate carries its name, target
and control qubits, an optional rotation parameter, and its generator, a
list of weighted Pauli strings (the result of make_generator with controls
included).
-/

namespace GenEnc

/-- Pauli letter on one qubit. -/
inductive Pauli
  | X
  | Y
  | Z
deriving DecidableEq, Repr

/-- Weighted Pauli string: a coefficient and a list of (qubit, letter)
pairs.  Mirrors tequila PauliString (a qubit-to-letter map plus a
coefficient); the list order is the insertion order, rendering sorts it. -/
structure PauliString (R : Type) where
  coeff : R
  letters : List (Nat × Pauli)
deriving DecidableEq, Repr

/-- Rotation parameter of a gate: a concrete number, a bare named variable,
or a variable scaled by a constant (the shape produced when compile
multiplies a symbolic Hadamard parameter by π). -/
inductive Angle (R : Type)
  | num (r : R)
  | sym (name : List Char)
  | scaled (c : R) (name : List Char)
deriving DecidableEq, Repr

/-- One circuit gate, seen through the CircuitAdapter boundary: name,
target and control qubits, optional parameter, and the generator
decomposition (make_generator with include_controls=True). -/
structure Gate (R : Type) where
  name : String
  target : List Nat
  control : List Nat
  parameter : Option (Angle R)
  generator : List (PauliString R)
deriving DecidableEq, Repr

/-- Ordered sequence of gates. -/
structure QCircuit (R : Type) where
  gates : List (Gate R)
deriving DecidableEq, Repr

/-- Variable environment: assoc list from variable name to numeric value
(Python dict keyed by variable name). -/
def Vars (R : Type) : Type := List (List Char × R)

/-- Lookup of a variable name in the environment. -/
def varLookup {R : Type} (vs : Vars R) (n : List Char) : Option R :=
  match vs with
  | [] => none
  | (k, v) :: rest => if k = n then some v else varLookup rest n

/-- Angle periodicity normalization, from fix_periodicity in the source:
Python `angle % (4.0*numpy.pi)` is `angle - 4π*floor(angle/(4π))`, followed
by the (in exact arithmetic dead) non-negativity shift. -/
def fix_periodicity {R : Type} [LinearOrderedField R] [FloorRing R] (pi θ : R) : R :=
  let a := θ - 4 * pi * (⌊θ / (4 * pi)⌋ : ℤ)
  if a < 0 then a + 4 * pi else a

/-- Lowercasing of a gate name, from Python name.lower(). -/
def lowerStr (s : String) : String := ⟨s.data.map Char.toLower⟩

/-- Evaluation of a gate parameter under an optional variable environment,
from the Python call gate.parameter(variables): a plain number evaluates to
itself, a variable looks itself up (failure when absent or when no
environment was passed, mirroring the raised exception). -/
def evalAngle {R : Type} [LinearOrderedField R] (a : Angle R) (vars : Option (Vars R)) :
    Option R :=
  match a, vars with
  | .num r, _ => some r
  | .sym n, some vs => varLookup vs n
  | .sym _, none => none
  | .scaled c n, some vs => (varLookup vs n).map (fun v => c * v)
  | .scaled _ _, none => none

/-- Name of the single variable referenced by a symbolic parameter, from
parameter.extract_variables() followed by str of the unique entry.  A plain
number never reaches this path in encode. -/
def extractName {R : Type} : Angle R → List Char
  | .num _ => []
  | .sym n => n
  | .scaled _ n => n

/-- Angle resolution in encode: try evaluating the parameter; on failure
fall back to the referenced variable name (the try/except in encode). -/
def resolveAngle {R : Type} [LinearOrderedField R] (a : Angle R) (vars : Option (Vars R)) :
    Angle R :=
  match evalAngle a vars with
  | some v => .num v
  | none => .sym (extractName a)

/-- Multiplication of a parameter by a constant, from the Python expression
angle * numpy.pi in compile (a number multiplies through, a symbolic
parameter becomes a scaled symbolic expression). -/
def Angle.scale {R : Type} [LinearOrderedField R] (x : R) : Angle R → Angle R
  | .num r => .num (r * x)
  | .sym n => .scaled x n
  | .scaled c n => .scaled (c * x) n

/-- Qubit-index order on letter entries. -/
def letterLE (p q : Nat × Pauli) : Prop := p.1 ≤ q.1

instance : DecidableRel letterLE := fun p q => Nat.decLe p.1 q.1

instance : IsTotal (Nat × Pauli) letterLE := ⟨fun a b => Nat.le_total a.1 b.1⟩

instance : IsTrans (Nat × Pauli) letterLE := ⟨fun _ _ _ => Nat.le_trans⟩

/-- Letters in ascending qubit-index order, the canonical order used when a
Pauli string is rendered (str of ps.naked() in the source; tequila renders
qubits ascending, per the spec). -/
def sortLetters (l : List (Nat × Pauli)) : List (Nat × Pauli) :=
  List.insertionSort letterLE l

/-- One token of the wire format, in structured form: the angle text placed
before the angle separator (empty when the angle was numerically resolved),
the rendered coefficient, and the rendered letters. -/
structure Token (R : Type) where
  angleText : List Char
  coeff : R
  letters : List (Nat × Pauli)
deriving DecidableEq, Repr

/-- Token construction from encode_paulistring in the source: a numeric
angle folds into the coefficient and leaves the angle text empty, a
symbolic angle keeps its text and leaves the coefficient alone; either way
the coefficient is periodicity-normalized and the letters are rendered in
ascending qubit order. -/
def encode_paulistring {R : Type} [LinearOrderedField R] [FloorRing R]
    (pi : R) (ps : PauliString R) (angle : Angle R) : Token R :=
  match angle with
  | .num r => ⟨[], fix_periodicity pi (ps.coeff * r), sortLetters ps.letters⟩
  | a => ⟨extractName a, fix_periodicity pi ps.coeff, sortLetters ps.letters⟩

/-- Modelled from the spec: the generator of a controlled gate
(make_generator with include_controls=True, supplied by the external
tequila collaborator, absent from this repository) dresses the base
generator with one (1 - Z_c)/2 projector per control qubit. -/
def expandControls {R : Type} [LinearOrderedField R] (controls : List Nat)
    (base : List (PauliString R)) : List (PauliString R) :=
  match controls with
  | [] => base
  | c :: rest =>
    let e := expandControls rest base
    e.map (fun p => ⟨p.coeff / 2, p.letters⟩)
      ++ e.map (fun p => ⟨-(p.coeff / 2), (c, Pauli.Z) :: p.letters⟩)

/-- Modelled from the spec: a rotation gate as built by tq.gates.Ry and
tq.gates.Rz inside compile, whose generator is the rotation axis letter on
each target, dressed with the control projectors. -/
def mkRotation {R : Type} [LinearOrderedField R] (name : String) (axis : Pauli)
    (angle : Angle R) (target control : List Nat) : Gate R :=
  { name := name, target := target, control := control, parameter := some angle,
    generator := expandControls control (target.map (fun t => ⟨1, [(t, axis)]⟩)) }

/-- Parameter of a gate with the default 1.0 for parameterless gates, from
the expression gate.parameter if hasattr(gate, "parameter") else 1.0. -/
def gateAngleOf {R : Type} [LinearOrderedField R] (g : Gate R) : Angle R :=
  g.parameter.getD (.num 1)

/-- Decomposition of one Hadamard gate inside compile: Ry(-π/4), then
Rz(angle·π) carrying the original controls, then Ry(π/4), all on the same
target. -/
def hadamardDecomp {R : Type} [LinearOrderedField R] (pi : R) (g : Gate R) :
    List (Gate R) :=
  [ mkRotation "Ry" .Y (.num (-(pi / 4))) g.target [],
    mkRotation "Rz" .Z (Angle.scale pi (gateAngleOf g)) g.target g.control,
    mkRotation "Ry" .Y (.num (pi / 4)) g.target [] ]

/-- Compile from the source: fold over the gates, replacing each gate whose
lowercased name is h by its three-rotation decomposition and passing every
other gate through unchanged. -/
def compile {R : Type} [LinearOrderedField R] (pi : R) (C : QCircuit R) : QCircuit R :=
  ⟨C.gates.foldl
    (fun acc g => if lowerStr g.name = "h" then acc ++ hadamardDecomp pi g else acc ++ [g])
    []⟩

/-- Concatenation of the per-element lists, the shape of a loop that emits
several items per input element. -/
def flatMapL {α β : Type} (f : α → List β) : List α → List β
  | [] => []
  | a :: l => f a ++ flatMapL f l

/-- Non-trivial Pauli strings of a generator: the loop in encode skips
length-zero Pauli strings (global phases). -/
def nontrivialPS {R : Type} (g : Gate R) : List (PauliString R) :=
  g.generator.filter (fun ps => !ps.letters.isEmpty)

/-- Encode from the source: compile the circuit, then for each gate resolve
its angle once and emit one token per non-trivial Pauli string of its
generator, in order. -/
def encode {R : Type} [LinearOrderedField R] [FloorRing R] (pi : R)
    (C : QCircuit R) (vars : Option (Vars R)) : List (Token R) :=
  flatMapL
    (fun g => (nontrivialPS g).map
      (fun ps => encode_paulistring pi ps (resolveAngle (gateAngleOf g) vars)))
    (compile pi C).gates

/-- Split of a character list at every occurrence of a separator, the
behaviour of Python str.split(sep) for a one-character separator. -/
def splitOnChar (sep : Char) : List Char → List (List Char)
  | [] => [[]]
  | c :: cs =>
    match splitOnChar sep cs with
    | [] => [[]]
    | f :: rest => if c = sep then [] :: f :: rest else (c :: f) :: rest

/-- Whitespace stripping at both ends, Python str.strip(). -/
def trimChars (l : List Char) : List Char :=
  ((l.dropWhile Char.isWhitespace).reverse.dropWhile Char.isWhitespace).reverse

/-- Numeric value of a digit character. -/
def digitVal (c : Char) : Nat := c.toNat - 48

/-- Value of a digit list read in base ten. -/
def natValOf (l : List Char) : Nat := l.foldl (fun a c => 10 * a + digitVal c) 0

/-- Characters that can occur in a string Python float() accepts: sign
characters, ASCII digits, the decimal point, underscores (digit grouping),
the exponent marker e/E, and the letters of the non-finite literals inf,
infinity and nan in either case.  Any float() parse consumes only such
characters, so a string holding a character outside this set always makes
float() raise. -/
def pyFloatChar (c : Char) : Bool :=
  c.isDigit || c = '.' || c = '-' || c = '+' || c = '_' ||
    c = 'e' || c = 'E' || c = 'i' || c = 'I' || c = 'n' || c = 'N' ||
    c = 'f' || c = 'F' || c = 'a' || c = 'A' || c = 't' || c = 'T' ||
    c = 'y' || c = 'Y'

/-- Lowercasing restricted to the six letters of inf, infinity and nan,
enough to recognize the non-finite float literals case-insensitively. -/
def lowerChar (c : Char) : Char :=
  if c = 'I' then 'i'
  else if c = 'N' then 'n'
  else if c = 'F' then 'f'
  else if c = 'A' then 'a'
  else if c = 'T' then 't'
  else if c = 'Y' then 'y'
  else c

/-- Non-finite float literals Python float() accepts (after sign removal):
inf, infinity and nan, case-insensitively. -/
def pyNonFinite (m : List Char) : Bool :=
  let low := m.map lowerChar
  low = ['i', 'n', 'f'] || low = ['i', 'n', 'f', 'i', 'n', 'i', 't', 'y']
    || low = ['n', 'a', 'n']

/-- Digit-grouping underscores removed (Python numerals may group digits
with underscores; the placement rules are relaxed here, which is
immaterial under the well-formed-name proviso used by the theorems). -/
def dropUnderscores (l : List Char) : List Char := l.filter (fun c => c != '_')

/-- Unsigned decimal numeral parse: an integer part, optionally a dot and a
fractional part, at least one digit in total, underscores allowed. -/
def parseUnsigned? {R : Type} [LinearOrderedField R] (m0 : List Char) : Option R :=
  let m := dropUnderscores m0
  match splitOnChar '.' m with
  | [ip] =>
    if ip ≠ [] ∧ ip.all Char.isDigit then some ((natValOf ip : Nat) : R) else none
  | [ip, fp] =>
    if (ip ++ fp) ≠ [] ∧ ip.all Char.isDigit ∧ fp.all Char.isDigit then
      some (((natValOf ip : Nat) : R) + ((natValOf fp : Nat) : R) / (10 : R) ^ fp.length)
    else none
  | _ => none

/-- Digit run (underscores allowed) read as an integer. -/
def parseDigitsInt? (d : List Char) : Option ℤ :=
  let m := dropUnderscores d
  if m ≠ [] ∧ m.all Char.isDigit then some ((natValOf m : Nat) : ℤ) else none

/-- Optionally signed integer, the exponent field of a float literal. -/
def parseExpInt? (l : List Char) : Option ℤ :=
  match l with
  | [] => none
  | a :: r =>
    if a = '-' then (parseDigitsInt? r).map (fun n => -n)
    else if a = '+' then parseDigitsInt? r
    else parseDigitsInt? (a :: r)

/-- Mantissa with optional exponent: split at the first e/E, parse the
mantissa as an unsigned numeral and the exponent as a signed integer. -/
def parseMantExp? {R : Type} [LinearOrderedField R] (m : List Char) : Option R :=
  let mant := m.takeWhile (fun c => !(c = 'e' || c = 'E'))
  let rest := m.dropWhile (fun c => !(c = 'e' || c = 'E'))
  match rest with
  | [] => parseUnsigned? mant
  | _ :: ex =>
    match parseUnsigned? (R := R) mant, parseExpInt? ex with
    | some v, some k => some (v * (10 : R) ^ k)
    | _, _ => none

/-- Sign-stripped float literal parse: the non-finite literals inf,
infinity and nan are accepted as Python float() accepts them — the
idealized field has no infinities or nan, so their returned value is an
arbitrary placeholder; every theorem that depends on a parsed value runs
under a well-formedness proviso excluding these names, only the fact that
float() succeeds on them is ever used. -/
def parseSignless? {R : Type} [LinearOrderedField R] (m : List Char) : Option R :=
  if pyNonFinite m then some 0 else parseMantExp? m

/-- Python float(str): strip whitespace, take an optional sign, then parse
a numeral with optional fraction and exponent, or a non-finite literal. -/
def parseFloat? {R : Type} [LinearOrderedField R] (l : List Char) : Option R :=
  match trimChars l with
  | [] => none
  | a :: r =>
    if a = '-' then (parseSignless? r).map (fun v => -v)
    else if a = '+' then parseSignless? r
    else parseSignless? (a :: r)

/-- Angle-field handling in decode: try parsing the text as a number; on
failure strip it, default the empty text to 1.0, look a surviving name up
in the environment when one was supplied, and otherwise keep the name as a
symbolic angle. -/
def parseAngleText {R : Type} [LinearOrderedField R] (a : List Char)
    (vars : Option (Vars R)) : Angle R :=
  match parseFloat? a with
  | some v => .num v
  | none =>
    let a' := trimChars a
    if a' = [] then .num 1
    else
      match vars with
      | some vs =>
        match varLookup vs a' with
        | some v => .num v
        | none => .sym a'
      | none => .sym a'

/-- Gate appended by decode for one token, tq.gates.ExpPauli on the parsed
Pauli string and resolved angle. -/
def ExpPauli {R : Type} (ps : PauliString R) (a : Angle R) : Gate R :=
  { name := "ExpPauli", target := ps.letters.map Prod.fst, control := [],
    parameter := some a, generator := [ps] }

/-- Decode at the token level: one ExpPauli gate per token, in order, with
the token coefficient as the Pauli-string weight and the parsed angle
field. -/
def decodeTokens {R : Type} [LinearOrderedField R] (toks : List (Token R))
    (vars : Option (Vars R)) : QCircuit R :=
  ⟨toks.map (fun t => ExpPauli ⟨t.coeff, t.letters⟩ (parseAngleText t.angleText vars))⟩

/-- Congruence modulo 4π: the two values differ by an integer multiple of
4π.  Since exp(-i θ/2 P) for a Pauli word P has period 4π in θ, two
exponentiated-Pauli factors with the same letters and congruent effective
angles are equal operators. -/
def cong4 {R : Type} [LinearOrderedField R] (pi a b : R) : Prop :=
  ∃ k : ℤ, a - b = 4 * pi * k

/-- Operator equivalence of two exponentiated-Pauli-string operations, each
given as (angle, weighted Pauli string): same letter multiset, and the
effective angles (angle times coefficient) congruent modulo 4π.  This is
exactly the kernel of (angle, coeff, letters) ↦ exp(-i angle·coeff/2 P). -/
def opEquiv {R : Type} [LinearOrderedField R] (pi : R) (a b : R × PauliString R) : Prop :=
  a.2.letters.Perm b.2.letters ∧ cong4 pi (a.1 * a.2.coeff) (b.1 * b.2.coeff)

/-- View of a gate as a single exponentiated Pauli string with a numeric
angle, when it has that shape (the shape decode produces for numerically
resolved tokens). -/
def Gate.expData? {R : Type} : Gate R → Option (R × PauliString R)
  | g =>
    match g.parameter, g.generator with
    | some (.num r), [ps] => some (r, ps)
    | _, _ => none

/-- Per-token source data of an encoded circuit: one (Pauli string, gate
parameter) pair per non-trivial Pauli string of each compiled gate's
generator, in emission order. -/
def encodedPairs {R : Type} [LinearOrderedField R] (pi : R) (C : QCircuit R) :
    List (PauliString R × Angle R) :=
  flatMapL (fun g => (nontrivialPS g).map (fun ps => (ps, gateAngleOf g)))
    (compile pi C).gates

/-- Well-formedness of a variable name for the decode grammar: non-empty,
free of whitespace, and containing at least one ASCII letter outside the
letters a float literal can contain.  Python float() accepts letters only
inside inf, infinity, nan or as the exponent marker e/E, so a name holding
any other ASCII letter (for example q, x or z) always makes float()
raise — this is robust even against exponent forms, underscore grouping
and non-ASCII numerals, which is why the bad character is required to be
an ASCII letter rather than merely a non-numeral character. -/
def goodName (n : List Char) : Prop :=
  n ≠ [] ∧ (∀ c ∈ n, c.isWhitespace = false) ∧
    ∃ c ∈ n, c.isAlpha = true ∧ pyFloatChar c = false

/-- Well-formedness of a gate parameter: numeric parameters always, and
symbolic ones whose variable name is well formed. -/
def angleOk {R : Type} : Angle R → Prop
  | .num _ => True
  | .sym n => goodName n
  | .scaled _ n => goodName n

/-- Separator-freedom of a variable name for the default wire format:
no whitespace, no gate separator, no angle separator. -/
def sepFree (n : List Char) : Prop :=
  ∀ c ∈ n, c.isWhitespace = false ∧ c ≠ '|' ∧ c ≠ '@'

/-- Separator-freedom of a resolved gate angle: numeric angles always,
symbolic ones when their name is separator-free. -/
def sepFreeAngle {R : Type} : Angle R → Prop
  | .num _ => True
  | .sym n => sepFree n
  | .scaled _ n => sepFree n

/-- Round-trip relation between a decoded gate and the (Pauli string,
parameter) pair it was encoded from, under the encode-time environment:
a numerically resolved pair yields an operator-equivalent
exponentiated-Pauli gate; an unresolved pair yields a gate carrying the
extracted variable name symbolically, with the same letters and a
coefficient congruent to the original one. -/
def roundTripMatch {R : Type} [LinearOrderedField R] (pi : R) (vars : Option (Vars R))
    (g : Gate R) (pr : PauliString R × Angle R) : Prop :=
  match evalAngle pr.2 vars with
  | some r => ∃ d, Gate.expData? g = some d ∧ opEquiv pi d (r, pr.1)
  | none =>
    g.parameter = some (Angle.sym (extractName pr.2)) ∧
      ∃ ps2, g.generator = [ps2] ∧ ps2.letters.Perm pr.1.letters ∧
        cong4 pi ps2.coeff pr.1.coeff

/-- Gate filter loop of prune_circuit from the source: a gate without a
parameter is kept; otherwise its angle is evaluated (an unresolvable angle
raises, collapsing the whole call), normalized, and the gate is dropped
when numpy.isclose(angle, 0.0, atol=threshold) holds, which with the
default relative tolerance 1e-5 is the test |angle - 0| ≤ threshold +
1e-5·|0|. -/
def pruneGates {R : Type} [LinearOrderedField R] [FloorRing R] (pi : R)
    (vars : Option (Vars R)) (threshold : R) : List (Gate R) → Option (List (Gate R))
  | [] => some []
  | g :: gs =>
    match g.parameter with
    | none => (pruneGates pi vars threshold gs).map (fun r => g :: r)
    | some p =>
      match evalAngle p vars with
      | none => none
      | some v =>
        let a := fix_periodicity pi v
        if |a - 0| ≤ threshold + (1 / 100000) * |(0 : R)| then
          pruneGates pi vars threshold gs
        else (pruneGates pi vars threshold gs).map (fun r => g :: r)

/-- prune_circuit from the source. -/
def prune_circuit {R : Type} [LinearOrderedField R] [FloorRing R] (pi : R)
    (C : QCircuit R) (vars : Option (Vars R)) (threshold : R) : Option (QCircuit R) :=
  (pruneGates pi vars threshold C.gates).map (fun gs => ⟨gs⟩)

/-- Definition following the words of claim C4, not the source: drop
exactly the gates whose normalized angle lies in [0, t] ∪ [4π - t, 4π)
(for angles in [0, 4π) this is the test a ≤ t ∨ 4π - t ≤ a), and always
keep gates whose angle does not resolve. -/
def specPruneGates {R : Type} [LinearOrderedField R] [FloorRing R] (pi : R)
    (vars : Option (Vars R)) (t : R) : List (Gate R) → Option (List (Gate R))
  | [] => some []
  | g :: gs =>
    match g.parameter with
    | none => (specPruneGates pi vars t gs).map (fun r => g :: r)
    | some p =>
      match evalAngle p vars with
      | none => (specPruneGates pi vars t gs).map (fun r => g :: r)
      | some v =>
        let a := fix_periodicity pi v
        if a ≤ t ∨ 4 * pi - t ≤ a then specPruneGates pi vars t gs
        else (specPruneGates pi vars t gs).map (fun r => g :: r)

/-- Definition following the words of claim C4 at the circuit level. -/
def specPrune {R : Type} [LinearOrderedField R] [FloorRing R] (pi : R)
    (C : QCircuit R) (vars : Option (Vars R)) (t : R) : Option (QCircuit R) :=
  (specPruneGates pi vars t C.gates).map (fun gs => ⟨gs⟩)

/-- Keep condition the source's prune loop actually implements, written as
a plain threshold test: keep a gate without a parameter, and otherwise
keep it exactly when its normalized angle exceeds the threshold. -/
def keepGate {R : Type} [LinearOrderedField R] [FloorRing R] (pi : R)
    (vars : Option (Vars R)) (t : R) (g : Gate R) : Bool :=
  match g.parameter with
  | none => true
  | some p =>
    match evalAngle p vars with
    | some v => decide (t < fix_periodicity pi v)
    | none => true

/-- Decimal digit character for a value (taken modulo ten). -/
def digitChar (n : Nat) : Char := Char.ofNat (48 + n % 10)

/-- Decimal digits of a natural number, most significant first. -/
def natDigits (n : Nat) : List Char :=
  if n < 10 then [digitChar n]
  else natDigits (n / 10) ++ [digitChar (n % 10)]
termination_by n
decreasing_by exact Nat.div_lt_self (by omega) (by omega)

/-- Exactly four decimal digits of a value below ten thousand, most
significant first (zero padded). -/
def fracDigits4 (n : Nat) : List Char :=
  [digitChar (n / 1000), digitChar (n / 100), digitChar (n / 10), digitChar n]

/-- Fixed-point rendering of a field element with exactly four digits
after the decimal point, the Python format {:2.4f} (rounding idealized to
half-up). -/
def format4 {R : Type} [LinearOrderedField R] [FloorRing R] (q : R) : List Char :=
  let n : ℤ := ⌊q * 10000 + 1 / 2⌋
  let sgn : List Char := if n < 0 then ['-'] else []
  let m : Nat := n.natAbs
  sgn ++ natDigits (m / 10000) ++ '.' :: fracDigits4 (m % 10000)

/-- Letter character of a Pauli operator. -/
def renderLetter (p : Pauli) : Char :=
  match p with
  | .X => 'X'
  | .Y => 'Y'
  | .Z => 'Z'

/-- Modelled from the spec: rendering of the letters of a Pauli string as
letter(qubit) factors (str of ps.naked(), supplied by the external tequila
collaborator, absent from this repository). -/
def renderLetters (l : List (Nat × Pauli)) : List Char :=
  flatMapL (fun e => renderLetter e.2 :: '(' :: (natDigits e.1 ++ [')'])) l

/-- Body of one rendered token, everything before its terminating gate
separator: angle text, angle separator, coefficient to four decimals,
letters. -/
def tokenBody {R : Type} [LinearOrderedField R] [FloorRing R] (asep : Char)
    (t : Token R) : List Char :=
  t.angleText ++ asep :: (format4 t.coeff ++ renderLetters t.letters)

/-- Rendering of one structured token to the wire format
angle-text, angle separator, coefficient to four decimals, letters, gate
separator. -/
def renderToken {R : Type} [LinearOrderedField R] [FloorRing R] (gsep asep : Char)
    (t : Token R) : List Char :=
  tokenBody asep t ++ [gsep]

/-- Errors decode raises: a fragment that does not split into exactly two
fields at the angle separator (the tuple-unpacking ValueError), a
Pauli-string text the term parser rejects (the tequila parse exception),
and a parse yielding a term count other than one (the assert in
decode_paulistring). -/
inductive DecodeError
  | fieldCount (fragment : List Char)
  | termParse (rest : List Char)
  | termCount (rest : List Char)
deriving DecidableEq, Repr

/-- Pauli letter of a character, case insensitive. -/
def pauliOfChar (c : Char) : Option Pauli :=
  if c = 'X' ∨ c = 'x' then some .X
  else if c = 'Y' ∨ c = 'y' then some .Y
  else if c = 'Z' ∨ c = 'z' then some .Z
  else none

/-- Modelled from the spec: factor-sequence parse of a Pauli-string text,
letter(index) repeated (part of tequila QubitHamiltonian.from_string,
absent from this repository).  Fuel-driven recursion; the fuel is
length-sufficient at every call site. -/
def parseFactorsAux : Nat → List Char → Option (List (Nat × Pauli))
  | 0, _ => none
  | _, [] => some []
  | fuel + 1, c :: rest =>
    match pauliOfChar c with
    | none => none
    | some p =>
      match rest with
      | '(' :: r2 =>
        let ds := r2.takeWhile Char.isDigit
        let r3 := r2.dropWhile Char.isDigit
        match r3 with
        | ')' :: tail =>
          if ds = [] then none
          else (parseFactorsAux fuel tail).map (fun fs => (natValOf ds, p) :: fs)
        | _ => none
      | _ => none

/-- Factor-sequence parse with enough fuel. -/
def parseFactors (l : List Char) : Option (List (Nat × Pauli)) :=
  parseFactorsAux (l.length + 1) l

/-- Star separator between coefficient and letters, removed when
present. -/
def stripStar (l : List Char) : List Char :=
  match l with
  | '*' :: r => r
  | _ => l

/-- Modelled from the spec: parse of one additive term, an optional
numeral coefficient (optionally followed by a star) and then the factor
sequence. -/
def parseTermChars {R : Type} [LinearOrderedField R] (t : List Char) :
    Option (R × List (Nat × Pauli)) :=
  let numPart := t.takeWhile (fun c => c.isDigit || c = '.' || c = '-')
  let rest2 := stripStar (t.dropWhile (fun c => c.isDigit || c = '.' || c = '-'))
  if numPart = [] then (parseFactors rest2).map (fun fs => ((1 : R), fs))
  else
    match parseFloat? (R := R) numPart with
    | none => none
    | some v => (parseFactors rest2).map (fun fs => (v, fs))

/-- Term-by-term parse of the additive fragments: all must parse or the
whole parse fails. -/
def parseTermsList {R : Type} [LinearOrderedField R] :
    List (List Char) → Option (List (R × List (Nat × Pauli)))
  | [] => some []
  | t :: ts =>
    match parseTermChars (R := R) t, parseTermsList ts with
    | some x, some xs => some (x :: xs)
    | _, _ => none

/-- Modelled from the spec: parse of a Pauli-string expression into its
additive terms (tequila QubitHamiltonian.from_string, absent from this
repository); empty additive fragments contribute no term, so the empty
text parses to zero terms. -/
def parsePauliTerms {R : Type} [LinearOrderedField R] (l : List Char) :
    Option (List (R × List (Nat × Pauli))) :=
  parseTermsList (((splitOnChar '+' l).map trimChars).filter (fun t => !t.isEmpty))

/-- Malformed-fragment condition of claim C5 for a single fragment: the
angle-separator split of the stripped fragment does not have exactly two
parts, or the Pauli-string parse of its second part yields a term count
other than one (a parse failure counts as yielding no term). -/
def fragmentBadB {R : Type} [LinearOrderedField R] (asep : Char) (f : List Char) : Bool :=
  match splitOnChar asep (trimChars f) with
  | [_, rest] => ((parsePauliTerms (R := R) rest).getD []).length != 1
  | _ => true

/-- Handling of one fragment inside decode: strip it, skip it when empty,
split it at the angle separator into exactly two fields, parse the
Pauli-string field into exactly one term, and build the ExpPauli gate with
the resolved angle field. -/
def fragmentStep {R : Type} [LinearOrderedField R] (asep : Char)
    (vars : Option (Vars R)) (f : List Char) : Except DecodeError (Option (Gate R)) :=
  let f2 := trimChars f
  if f2 = [] then .ok none
  else
    match splitOnChar asep f2 with
    | [a, rest] =>
      match parsePauliTerms (R := R) rest with
      | none => .error (.termParse rest)
      | some ts =>
        match ts with
        | [t] => .ok (some (ExpPauli ⟨t.1, t.2⟩ (parseAngleText a vars)))
        | _ => .error (.termCount rest)
    | _ => .error (.fieldCount f2)

/-- Fragment loop of decode: the first failing fragment fails the whole
call, empty fragments are skipped, surviving gates keep fragment order. -/
def decodeFragments {R : Type} [LinearOrderedField R] (asep : Char)
    (vars : Option (Vars R)) : List (List Char) → Except DecodeError (List (Gate R))
  | [] => .ok []
  | f :: fs =>
    match fragmentStep (R := R) asep vars f with
    | .error e => .error e
    | .ok none => decodeFragments asep vars fs
    | .ok (some g) => (decodeFragments asep vars fs).map (fun l => g :: l)

/-- Decode from the source, at the character level: split the input at the
gate separator and run the fragment loop. -/
def decodeChars {R : Type} [LinearOrderedField R] (gsep asep : Char) (l : List Char)
    (vars : Option (Vars R)) : Except DecodeError (QCircuit R) :=
  (decodeFragments (R := R) asep vars (splitOnChar gsep l)).map (fun gs => ⟨gs⟩)

/-- Input of the dispatching call operator: a circuit-like value (exposes
gate iteration), a string, or anything else (carried with its textual
representation, the value interpolated into the raised message). -/
inductive CallInput (R : Type)
  | circuit (c : QCircuit R)
  | text (s : List Char)
  | other (val : String)

/-- Error of the dispatching call operator: the unsupported-input-type
failure carrying the offending value, or a decode failure forwarded from
decode. -/
inductive CallError
  | unsupportedInputType (val : String)
  | decodeFailure (e : DecodeError)
deriving DecidableEq, Repr

/-- Result of the dispatching call operator. -/
inductive CallResult (R : Type)
  | encoded (toks : List (Token R))
  | decoded (c : QCircuit R)

/-- The dispatching call operator from the source: circuit-like inputs are
encoded, string inputs are decoded, anything else raises carrying the
offending value. -/
def callEncoder {R : Type} [LinearOrderedField R] [FloorRing R] (pi : R)
    (gsep asep : Char) (inp : CallInput R) (vars : Option (Vars R)) :
    Except CallError (CallResult R) :=
  match inp with
  | .circuit c => .ok (.encoded (encode pi c vars))
  | .text s =>
    match decodeChars gsep asep s vars with
    | .ok c => .ok (.decoded c)
    | .error e => .error (.decodeFailure e)
  | .other v => .error (.unsupportedInputType v)

/-- The symbol configuration, the class-level _symbols dictionary of the
source.  It is one process-wide value: every encoder instance reads its
separators from it. -/
structure Symbols where
  gate_separator : String
  angle_separator : String
deriving DecidableEq, Repr

/-- Initial value of the class-level symbol dictionary. -/
def defaultSymbols : Symbols := ⟨"|", "@"⟩

/-- Effect of constructing one encoder on the process-wide symbol state:
each separator argument that is not None overwrites the shared entry in
place (the source assigns into the class-level dictionary). -/
def encoderInit (shared : Symbols) (g a : Option String) : Symbols :=
  { gate_separator := g.getD shared.gate_separator,
    angle_separator := a.getD shared.angle_separator }

section FixPeriodicity

variable {R : Type} [LinearOrderedField R] [FloorRing R]

theorem fix_periodicity_nonneg_lt (pi θ : R) (hpi : 0 < pi) :
    0 ≤ fix_periodicity pi θ ∧ fix_periodicity pi θ < 4 * pi := by
  have hm : (0 : R) < 4 * pi := by positivity
  have hm0 : (4 * pi : R) ≠ 0 := ne_of_gt hm
  have key : θ - 4 * pi * (⌊θ / (4 * pi)⌋ : ℤ) = 4 * pi * Int.fract (θ / (4 * pi)) := by
    rw [Int.fract]
    have h2 : 4 * pi * (θ / (4 * pi)) = θ := by field_simp
    rw [mul_sub, h2]
  have hα : 0 ≤ θ - 4 * pi * (⌊θ / (4 * pi)⌋ : ℤ) := by
    rw [key]
    exact mul_nonneg hm.le (Int.fract_nonneg _)
  have hβ : θ - 4 * pi * (⌊θ / (4 * pi)⌋ : ℤ) < 4 * pi := by
    rw [key]
    calc 4 * pi * Int.fract (θ / (4 * pi)) < 4 * pi * 1 :=
          (mul_lt_mul_left hm).mpr (Int.fract_lt_one _)
      _ = 4 * pi := mul_one _
  unfold fix_periodicity
  simp only [not_lt.mpr hα, if_neg (not_lt.mpr hα)]
  exact ⟨hα, hβ⟩

theorem fix_periodicity_congruent (pi θ : R) (hpi : 0 < pi) :
    ∃ k : ℤ, θ - fix_periodicity pi θ = 4 * pi * k := by
  have hα : 0 ≤ θ - 4 * pi * (⌊θ / (4 * pi)⌋ : ℤ) := by
    have hm : (0 : R) < 4 * pi := by positivity
    have key : θ - 4 * pi * (⌊θ / (4 * pi)⌋ : ℤ) = 4 * pi * Int.fract (θ / (4 * pi)) := by
      rw [Int.fract]
      have h2 : 4 * pi * (θ / (4 * pi)) = θ := by field_simp
      rw [mul_sub, h2]
    rw [key]
    exact mul_nonneg hm.le (Int.fract_nonneg _)
  refine ⟨⌊θ / (4 * pi)⌋, ?_⟩
  unfold fix_periodicity
  simp only [if_neg (not_lt.mpr hα)]
  ring

end FixPeriodicity

section CompileTheorem

variable {R : Type} [LinearOrderedField R]

theorem foldl_compile_eq (pi : R) (l acc : List (Gate R)) :
    l.foldl
        (fun acc g => if lowerStr g.name = "h" then acc ++ hadamardDecomp pi g else acc ++ [g])
        acc
      = acc ++ flatMapL (fun g => if lowerStr g.name = "h" then hadamardDecomp pi g else [g]) l := by
  induction l generalizing acc with
  | nil => simp [flatMapL]
  | cons x xs ih =>
    by_cases h : lowerStr x.name = "h" <;>
      simp [flatMapL, h, ih, List.append_assoc]

theorem compile_gates (pi : R) (C : QCircuit R) :
    (compile pi C).gates
      = flatMapL (fun g => if lowerStr g.name = "h" then hadamardDecomp pi g else [g]) C.gates := by
  show C.gates.foldl _ [] = _
  simpa using foldl_compile_eq pi C.gates []

end CompileTheorem

/-- Claim C7: compile replaces each Hadamard gate by exactly three rotation
gates, in the order Ry(-π/4), then Rz(angle·π carrying the original gate's
controls), then Ry(π/4), all on the same target, and passes every
non-Hadamard gate through unchanged, preserving control qubits and gate
order. -/
theorem claim_C7_compile (C : QCircuit ℝ) :
    (compile Real.pi C).gates
      = flatMapL
          (fun g =>
            if lowerStr g.name = "h" then
              [ mkRotation "Ry" .Y (.num (-(Real.pi / 4))) g.target [],
                mkRotation "Rz" .Z (Angle.scale Real.pi (gateAngleOf g)) g.target g.control,
                mkRotation "Ry" .Y (.num (Real.pi / 4)) g.target [] ]
            else [g])
          C.gates := by
  rw [compile_gates]
  rfl

/-- Claim C3: for every numeric angle θ (including negative θ),
fix_periodicity θ lies in the half-open interval [0, 4π) and is congruent
to θ modulo 4π. -/
theorem claim_C3_fix_periodicity (θ : ℝ) :
    fix_periodicity Real.pi θ ∈ Set.Ico 0 (4 * Real.pi) ∧
      ∃ k : ℤ, θ - fix_periodicity Real.pi θ = 4 * Real.pi * k := by
  obtain ⟨h1, h2⟩ := fix_periodicity_nonneg_lt Real.pi θ Real.pi_pos
  exact ⟨⟨h1, h2⟩, fix_periodicity_congruent Real.pi θ Real.pi_pos⟩

section ListHelpers

variable {α β γ : Type}

theorem mem_flatMapL (f : α → List β) (l : List α) (x : β) :
    x ∈ flatMapL f l ↔ ∃ a ∈ l, x ∈ f a := by
  induction l with
  | nil => simp [flatMapL]
  | cons a t ih =>
    simp only [flatMapL, List.mem_append, ih, List.mem_cons]
    constructor
    · rintro (hx | ⟨b, hb, hx⟩)
      · exact ⟨a, Or.inl rfl, hx⟩
      · exact ⟨b, Or.inr hb, hx⟩
    · rintro ⟨b, rfl | hb, hx⟩
      · exact Or.inl hx
      · exact Or.inr ⟨b, hb, hx⟩

theorem map_flatMapL (f : α → List β) (m : β → γ) (l : List α) :
    (flatMapL f l).map m = flatMapL (fun a => (f a).map m) l := by
  induction l with
  | nil => rfl
  | cons a t ih => simp [flatMapL, ih]

theorem forall₂_map_self (P : β → α → Prop) (G : α → β) (l : List α)
    (h : ∀ x ∈ l, P (G x) x) : List.Forall₂ P (l.map G) l := by
  induction l with
  | nil => simp
  | cons a t ih =>
    exact List.Forall₂.cons (h a (List.mem_cons_self a t))
      (ih fun x hx => h x (List.mem_cons_of_mem a hx))

end ListHelpers

section SplitLemmas

theorem splitOnChar_ne_nil (sep : Char) (l : List Char) : splitOnChar sep l ≠ [] := by
  cases l with
  | nil => simp [splitOnChar]
  | cons c cs =>
    rw [splitOnChar]
    cases h : splitOnChar sep cs with
    | nil => simp
    | cons f rest => by_cases hc : c = sep <;> simp [hc]

theorem splitOnChar_append_sep (sep : Char) (l : List Char) :
    splitOnChar sep (l ++ [sep]) = splitOnChar sep l ++ [[]] := by
  induction l with
  | nil => simp [splitOnChar]
  | cons c cs ih =>
    obtain ⟨f, rest, hfr⟩ : ∃ f rest, splitOnChar sep cs = f :: rest := by
      cases h : splitOnChar sep cs with
      | nil => exact absurd h (splitOnChar_ne_nil sep cs)
      | cons f rest => exact ⟨f, rest, rfl⟩
    show splitOnChar sep (c :: (cs ++ [sep])) = _
    rw [splitOnChar, ih, hfr, splitOnChar, hfr]
    by_cases hc : c = sep <;> simp [hc]

end SplitLemmas

section DecodeFragmentsLemmas

variable {R : Type} [LinearOrderedField R]

theorem decodeFragments_append_nil (asep : Char) (vars : Option (Vars R))
    (fs : List (List Char)) :
    decodeFragments (R := R) asep vars (fs ++ [[]]) = decodeFragments asep vars fs := by
  induction fs with
  | nil => rfl
  | cons f fs ih =>
    show decodeFragments asep vars (f :: (fs ++ [[]])) = _
    rw [decodeFragments, decodeFragments]
    cases h : fragmentStep (R := R) asep vars f with
    | error e => rfl
    | ok og => cases og <;> simp [ih]

theorem decodeFragments_error_of_bad (asep : Char) (vars : Option (Vars R))
    (fs : List (List Char))
    (hbad : ∃ f ∈ fs, trimChars f ≠ [] ∧ fragmentBadB (R := R) asep f = true) :
    ∃ e, decodeFragments (R := R) asep vars fs = .error e := by
  induction fs with
  | nil =>
    rcases hbad with ⟨f, hf, _⟩
    cases hf
  | cons f0 fs ih =>
    rcases hbad with ⟨f, hf, hne, hb⟩
    rcases List.mem_cons.mp hf with rfl | htail
    · have hstep : ∃ e, fragmentStep (R := R) asep vars f = .error e := by
        rw [fragmentStep]
        rw [if_neg hne]
        rw [fragmentBadB] at hb
        rcases hsp : splitOnChar asep (trimChars f) with _ | ⟨a, _ | ⟨r, _ | ⟨x, t⟩⟩⟩ <;>
          rw [hsp] at hb
        · exact ⟨_, rfl⟩
        · exact ⟨_, rfl⟩
        · have hb2 : ((parsePauliTerms (R := R) r).getD []).length ≠ 1 := by
            simpa using hb
          cases hterms : parsePauliTerms (R := R) r with
          | none => exact ⟨DecodeError.termParse r, by simp [hterms]⟩
          | some ts =>
            rw [hterms] at hb2
            rcases ts with _ | ⟨t1, _ | ⟨t2, tr⟩⟩
            · exact ⟨DecodeError.termCount r, by simp [hterms]⟩
            · simp at hb2
            · exact ⟨DecodeError.termCount r, by simp [hterms]⟩
        · exact ⟨_, rfl⟩
      rcases hstep with ⟨e, he⟩
      exact ⟨e, by rw [decodeFragments, he]⟩
    · rcases ih ⟨f, htail, hne, hb⟩ with ⟨e, he⟩
      cases hstep : fragmentStep (R := R) asep vars f0 with
      | error e2 => exact ⟨e2, by rw [decodeFragments, hstep]⟩
      | ok og =>
        cases og with
        | none => exact ⟨e, by rw [decodeFragments, hstep]; exact he⟩
        | some g => exact ⟨e, by rw [decodeFragments, hstep, he]; rfl⟩

end DecodeFragmentsLemmas

/-- Claim C10: decoding a string with a trailing gate separator (a
terminal empty fragment) produces the same circuit as decoding it without
it, for every input string, variable environment and separator choice. -/
theorem claim_C10_trailing_separator (gsep asep : Char) (l : List Char)
    (vars : Option (Vars ℚ)) :
    decodeChars (R := ℚ) gsep asep (l ++ [gsep]) vars = decodeChars gsep asep l vars := by
  unfold decodeChars
  rw [splitOnChar_append_sep, decodeFragments_append_nil]

/-- Claim C5: decode fails with a decode error, returning no partial
circuit, whenever some fragment of the input is malformed: its stripped
text splits at the angle separator into a number of fields other than two,
or its Pauli-string part parses to a term count other than one. -/
theorem claim_C5_malformed_fragment (gsep asep : Char) (l : List Char)
    (vars : Option (Vars ℚ))
    (h : ∃ f ∈ splitOnChar gsep l, trimChars f ≠ [] ∧ fragmentBadB (R := ℚ) asep f = true) :
    ∃ e, decodeChars (R := ℚ) gsep asep l vars = Except.error e := by
  rcases decodeFragments_error_of_bad asep vars _ h with ⟨e, he⟩
  exact ⟨e, by rw [decodeChars, he]; rfl⟩

/-- Witness for claim C5 at a concrete malformed input: the string X(0)|
has a fragment with no angle separator. -/
theorem claim_C5_witness :
    (∃ f ∈ splitOnChar '|' "X(0)|".data, trimChars f ≠ [] ∧
        fragmentBadB (R := ℚ) '@' f = true) ∧
      ∃ e, decodeChars (R := ℚ) '|' '@' "X(0)|".data none = Except.error e := by
  have h : ∃ f ∈ splitOnChar '|' "X(0)|".data, trimChars f ≠ [] ∧
      fragmentBadB (R := ℚ) '@' f = true := by
    refine ⟨"X(0)".data, ?_, ?_, ?_⟩ <;> decide
  exact ⟨h, claim_C5_malformed_fragment '|' '@' "X(0)|".data none h⟩

/-- Claim C6: the dispatching call operator fails with the
unsupported-input-type error carrying the offending value exactly on
inputs that are neither circuit-like nor strings; circuit and string
inputs never produce that error. -/
theorem claim_C6_dispatch :
    (∀ (pi : ℚ) (gsep asep : Char) (v : String) (vars : Option (Vars ℚ)),
        callEncoder pi gsep asep (.other v) vars
          = Except.error (.unsupportedInputType v)) ∧
      (∀ (pi : ℚ) (gsep asep : Char) (c : QCircuit ℚ) (vars : Option (Vars ℚ)) (v : String),
        callEncoder pi gsep asep (.circuit c) vars
          ≠ Except.error (.unsupportedInputType v)) ∧
      (∀ (pi : ℚ) (gsep asep : Char) (s : List Char) (vars : Option (Vars ℚ)) (v : String),
        callEncoder pi gsep asep (.text s) vars
          ≠ Except.error (.unsupportedInputType v)) := by
  refine ⟨fun _ _ _ _ _ => rfl, ?_, ?_⟩
  · intro pi gsep asep c vars v h
    simp [callEncoder] at h
  · intro pi gsep asep s vars v h
    rw [callEncoder] at h
    cases hd : decodeChars (R := ℚ) gsep asep s vars with
    | ok c => rw [hd] at h; simp at h
    | error e => rw [hd] at h; simp at h

/-- Claim C9 (evaluation of the code bug): the separators live in one
process-wide symbol state shared by every encoder instance; constructing a
second encoder with a different gate separator overwrites the shared
state, so the separator an existing instance observes changes from the
default to the new value, contradicting the claimed per-instance read-only
behaviour. -/
theorem claim_C9_shared_symbols :
    defaultSymbols.gate_separator = "|" ∧
      (encoderInit defaultSymbols (some "#") none).gate_separator = "#" ∧
      (encoderInit defaultSymbols (some "#") none).gate_separator
        ≠ defaultSymbols.gate_separator := by
  refine ⟨rfl, rfl, ?_⟩
  decide

theorem sortLetters_sorted (l : List (Nat × Pauli)) :
    List.Sorted letterLE (sortLetters l) :=
  List.sorted_insertionSort letterLE l

theorem sortLetters_perm (l : List (Nat × Pauli)) : (sortLetters l).Perm l :=
  List.perm_insertionSort letterLE l

theorem encode_paulistring_letters {R : Type} [LinearOrderedField R] [FloorRing R]
    (pi : R) (ps : PauliString R) (a : Angle R) :
    (encode_paulistring pi ps a).letters = sortLetters ps.letters := by
  cases a <;> rfl

theorem cong4_fix {R : Type} [LinearOrderedField R] [FloorRing R] (pi x : R)
    (hpi : 0 < pi) : cong4 pi (fix_periodicity pi x) x := by
  rcases fix_periodicity_congruent pi x hpi with ⟨k, hk⟩
  refine ⟨-k, ?_⟩
  push_cast
  linarith

theorem digitChar_isDigit (n : Nat) : (digitChar n).isDigit = true := by
  have h : n % 10 < 10 := Nat.mod_lt _ (by norm_num)
  unfold digitChar
  generalize hG : n % 10 = m at h ⊢
  interval_cases m <;> decide

theorem fracDigits4_digits (n : Nat) : ∀ c ∈ fracDigits4 n, c.isDigit = true := by
  intro c hc
  simp only [fracDigits4, List.mem_cons, List.not_mem_nil, or_false] at hc
  rcases hc with rfl | rfl | rfl | rfl <;> exact digitChar_isDigit _


/-- Claim C2: for a numeric resolved angle the token's angle text is empty
and its coefficient is ps.coeff times the angle normalized into [0, 4π);
for a symbolic angle the angle text is the symbolic text and the
coefficient is ps.coeff normalized into [0, 4π); the token letters are in
ascending qubit order (a permutation of the Pauli string's letters); and
the rendered token places the coefficient with exactly four digits after
the decimal point between the angle separator and the letters, ending with
the gate separator. -/
theorem claim_C2_token_rule :
    (∀ (ps : PauliString ℝ) (r : ℝ),
        (encode_paulistring Real.pi ps (.num r)).angleText = [] ∧
          (encode_paulistring Real.pi ps (.num r)).coeff ∈ Set.Ico 0 (4 * Real.pi) ∧
          cong4 Real.pi (encode_paulistring Real.pi ps (.num r)).coeff (ps.coeff * r)) ∧
      (∀ (ps : PauliString ℝ) (n : List Char),
        (encode_paulistring Real.pi ps (.sym n)).angleText = n ∧
          (encode_paulistring Real.pi ps (.sym n)).coeff ∈ Set.Ico 0 (4 * Real.pi) ∧
          cong4 Real.pi (encode_paulistring Real.pi ps (.sym n)).coeff ps.coeff) ∧
      (∀ (ps : PauliString ℝ) (a : Angle ℝ),
        List.Sorted letterLE (encode_paulistring Real.pi ps a).letters ∧
          (encode_paulistring Real.pi ps a).letters.Perm ps.letters) ∧
      (∀ (gsep asep : Char) (t : Token ℚ), ∃ lead fr,
        renderToken gsep asep t
            = t.angleText ++ asep :: (lead ++ '.' :: (fr ++ renderLetters t.letters ++ [gsep])) ∧
          fr.length = 4 ∧ ∀ c ∈ fr, c.isDigit = true) := by
  refine ⟨?_, ?_, ?_, ?_⟩
  · intro ps r
    obtain ⟨h1, h2⟩ := fix_periodicity_nonneg_lt Real.pi (ps.coeff * r) Real.pi_pos
    exact ⟨rfl, ⟨h1, h2⟩, cong4_fix Real.pi (ps.coeff * r) Real.pi_pos⟩
  · intro ps n
    obtain ⟨h1, h2⟩ := fix_periodicity_nonneg_lt Real.pi ps.coeff Real.pi_pos
    exact ⟨rfl, ⟨h1, h2⟩, cong4_fix Real.pi ps.coeff Real.pi_pos⟩
  · intro ps a
    rw [encode_paulistring_letters]
    exact ⟨sortLetters_sorted ps.letters, sortLetters_perm ps.letters⟩
  · intro gsep asep t
    refine ⟨(if (⌊t.coeff * 10000 + 1 / 2⌋ : ℤ) < 0 then ['-'] else [])
        ++ natDigits ((⌊t.coeff * 10000 + 1 / 2⌋ : ℤ).natAbs / 10000),
      fracDigits4 ((⌊t.coeff * 10000 + 1 / 2⌋ : ℤ).natAbs % 10000), ?_, rfl,
      fracDigits4_digits _⟩
    rw [renderToken, tokenBody, format4]
    simp [List.append_assoc]

theorem pruneGates_eq_filter (V : Option (Vars ℝ)) (t : ℝ) (l : List (Gate ℝ))
    (hres : ∀ g ∈ l, ∀ p, g.parameter = some p → (evalAngle p V).isSome = true) :
    pruneGates Real.pi V t l = some (l.filter (keepGate Real.pi V t)) := by
  induction l with
  | nil => rfl
  | cons g gs ih =>
    have ih2 := ih (fun g2 hg2 p hp => hres g2 (List.mem_cons_of_mem _ hg2) p hp)
    rw [pruneGates]
    cases hp : g.parameter with
    | none =>
      rw [ih2]
      simp [List.filter_cons, keepGate, hp]
    | some p =>
      have hv := hres g (List.mem_cons_self g gs) p hp
      cases hev : evalAngle p V with
      | none => rw [hev] at hv; simp at hv
      | some v =>
        dsimp only
        rw [hev]
        dsimp only
        have hnn : 0 ≤ fix_periodicity Real.pi v :=
          (fix_periodicity_nonneg_lt Real.pi v Real.pi_pos).1
        simp only [sub_zero, abs_zero, mul_zero, add_zero, abs_of_nonneg hnn]
        by_cases hc : fix_periodicity Real.pi v ≤ t
        · rw [if_pos hc, ih2]
          simp [List.filter_cons, keepGate, hp, hev, not_lt.mpr hc]
        · rw [if_neg hc, ih2]
          simp [List.filter_cons, keepGate, hp, hev, lt_of_not_le hc]

/-- Claim C4 (amended): when every parametrized gate's angle resolves
under the environment, prune_circuit returns exactly the gates that have
no parameter or whose normalized angle exceeds the threshold, preserving
their original order (the result is the filter of the input); in
particular gates whose normalized angle lies in [4π−threshold, 4π) are
kept, not removed. -/
theorem claim_C4_prune_filter (C : QCircuit ℝ) (V : Option (Vars ℝ)) (t : ℝ)
    (hres : ∀ g ∈ C.gates, ∀ p, g.parameter = some p → (evalAngle p V).isSome = true) :
    prune_circuit Real.pi C V t
      = some ⟨C.gates.filter (keepGate Real.pi V t)⟩ := by
  rw [prune_circuit, pruneGates_eq_filter V t C.gates hres]
  rfl

/-- Witness for the amended claim C4 at a concrete circuit: one gate with
the resolvable numeric angle 2. -/
theorem claim_C4_witness :
    (∀ g ∈ ({ gates := [⟨"Rx", [0], [], some (Angle.num 2), [⟨1, [(0, Pauli.X)]⟩]⟩] } :
          QCircuit ℝ).gates,
        ∀ p, g.parameter = some p → (evalAngle p (none : Option (Vars ℝ))).isSome = true) ∧
      prune_circuit Real.pi
          ⟨[⟨"Rx", [0], [], some (Angle.num 2), [⟨1, [(0, Pauli.X)]⟩]⟩]⟩ none 1
        = some ⟨([⟨"Rx", [0], [], some (Angle.num 2), [⟨1, [(0, Pauli.X)]⟩]⟩] :
            List (Gate ℝ)).filter (keepGate Real.pi none 1)⟩ := by
  have h : ∀ g ∈ ({ gates := [⟨"Rx", [0], [], some (Angle.num 2), [⟨1, [(0, Pauli.X)]⟩]⟩] } :
        QCircuit ℝ).gates,
      ∀ p, g.parameter = some p → (evalAngle p (none : Option (Vars ℝ))).isSome = true := by
    intro g hg p hp
    rcases List.mem_singleton.mp hg with rfl
    cases hp
    rfl
  exact ⟨h, claim_C4_prune_filter _ none 1 h⟩

theorem fix_periodicity_neg_small :
    fix_periodicity Real.pi (-(1 / 100000)) = 4 * Real.pi - 1 / 100000 := by
  have hpi := Real.pi_gt_d6
  have hm : (0 : ℝ) < 4 * Real.pi := by linarith
  have hfl : ⌊(-(1 / 100000) : ℝ) / (4 * Real.pi)⌋ = -1 := by
    rw [Int.floor_eq_iff]
    constructor
    · push_cast
      rw [le_div_iff₀ hm]
      linarith
    · push_cast
      have hq : (-(1 / 100000) : ℝ) / (4 * Real.pi) < 0 :=
        div_neg_of_neg_of_pos (by norm_num) hm
      linarith
  simp only [fix_periodicity, hfl]
  push_cast
  rw [if_neg (by linarith)]
  ring

/-- Counterexample to claim C4 as stated: a gate with angle -1e-5, whose
normalized angle 4π - 1e-5 lies in the claimed removal band
[4π - 1e-4, 4π); the claim-side pruning drops it, but the source's
prune_circuit keeps it, because numpy.isclose(angle, 0) on the normalized
angle only detects angles in [0, threshold]. -/
theorem claim_C4_counterexample :
    prune_circuit Real.pi
        ⟨[⟨"Rz", [0], [], some (Angle.num (-(1 / 100000))), []⟩]⟩ none (1 / 10000)
        = some ⟨[⟨"Rz", [0], [], some (Angle.num (-(1 / 100000))), []⟩]⟩ ∧
      specPrune Real.pi
          ⟨[⟨"Rz", [0], [], some (Angle.num (-(1 / 100000))), []⟩]⟩ none (1 / 10000)
        = some ⟨[]⟩ ∧
      fix_periodicity Real.pi (-(1 / 100000))
        ∈ Set.Ico (4 * Real.pi - 1 / 10000) (4 * Real.pi) := by
  have hpi := Real.pi_gt_d6
  have hfix := fix_periodicity_neg_small
  refine ⟨?_, ?_, ?_⟩
  · rw [prune_circuit, pruneGates]
    simp only [evalAngle, hfix]
    rw [if_neg (by rw [sub_zero, abs_zero, mul_zero, add_zero,
      abs_of_nonneg (by linarith : (0:ℝ) ≤ 4 * Real.pi - 1 / 100000)]; linarith)]
    rw [pruneGates]
    rfl
  · rw [specPrune, specPruneGates]
    simp only [evalAngle, hfix]
    rw [if_pos (Or.inr (by linarith))]
    rw [specPruneGates]
    rfl
  · rw [hfix]
    exact ⟨by linarith, by linarith⟩

section ParseLemmas

variable {R : Type} [LinearOrderedField R]

theorem dropWhile_eq_self_of {α : Type} (p : α → Bool) (l : List α)
    (h : ∀ c ∈ l, p c = false) : l.dropWhile p = l := by
  cases l with
  | nil => rfl
  | cons a t =>
    rw [List.dropWhile_cons, h a (List.mem_cons_self a t)]
    simp

theorem trimChars_eq_self (l : List Char) (h : ∀ c ∈ l, c.isWhitespace = false) :
    trimChars l = l := by
  unfold trimChars
  rw [dropWhile_eq_self_of _ l h,
    dropWhile_eq_self_of _ l.reverse (fun c hc => h c (List.mem_reverse.mp hc)),
    List.reverse_reverse]

theorem mem_splitOnChar (sep : Char) (l : List Char) (c : Char) (hc : c ∈ l)
    (hne : c ≠ sep) : ∃ p ∈ splitOnChar sep l, c ∈ p := by
  induction l with
  | nil => cases hc
  | cons a cs ih =>
    obtain ⟨f, rest, hfr⟩ : ∃ f rest, splitOnChar sep cs = f :: rest := by
      cases h : splitOnChar sep cs with
      | nil => exact absurd h (splitOnChar_ne_nil sep cs)
      | cons f rest => exact ⟨f, rest, rfl⟩
    rcases List.mem_cons.mp hc with rfl | hmem
    · rw [splitOnChar, hfr]
      dsimp only
      rw [if_neg hne]
      exact ⟨c :: f, List.mem_cons_self _ _, List.mem_cons_self _ _⟩
    · rcases ih hmem with ⟨p, hp, hcp⟩
      rw [hfr] at hp
      rw [splitOnChar, hfr]
      dsimp only
      by_cases ha : a = sep
      · rw [if_pos ha]
        exact ⟨p, List.mem_cons_of_mem _ hp, hcp⟩
      · rw [if_neg ha]
        rcases List.mem_cons.mp hp with rfl | hp2
        · exact ⟨a :: p, List.mem_cons_self _ _, List.mem_cons_of_mem _ hcp⟩
        · exact ⟨p, List.mem_cons_of_mem _ hp2, hcp⟩

theorem pyFloatChar_false_parts (c : Char) (h : pyFloatChar c = false) :
    c.isDigit = false ∧ c ≠ '.' ∧ c ≠ '-' ∧ c ≠ '+' ∧ c ≠ '_' ∧ c ≠ 'e' ∧ c ≠ 'E' := by
  rw [pyFloatChar] at h
  simp only [Bool.or_eq_false_iff, decide_eq_false_iff_not] at h
  tauto

theorem mem_dropUnderscores (l : List Char) (c : Char) (hc : c ∈ l) (hus : c ≠ '_') :
    c ∈ dropUnderscores l := by
  rw [dropUnderscores]
  exact List.mem_filter.mpr ⟨hc, by simp [hus]⟩

theorem parseUnsigned?_eq_none (m0 : List Char) (c : Char) (hc : c ∈ m0)
    (hd : c.isDigit = false) (hdot : c ≠ '.') (hus : c ≠ '_') :
    parseUnsigned? (R := R) m0 = none := by
  have hcm : c ∈ dropUnderscores m0 := mem_dropUnderscores m0 c hc hus
  rcases mem_splitOnChar '.' (dropUnderscores m0) c hcm hdot with ⟨p, hp, hcp⟩
  rw [parseUnsigned?]
  rcases hsp : splitOnChar '.' (dropUnderscores m0) with _ | ⟨ip, _ | ⟨fp, _ | ⟨x, t⟩⟩⟩ <;>
    rw [hsp] at hp
  · dsimp only
    have hpe : p = ip := List.mem_singleton.mp hp
    subst hpe
    have hcond : ¬(p ≠ [] ∧ p.all Char.isDigit = true) := by
      rintro ⟨-, hall⟩
      simp only [List.all_eq_true] at hall
      have h2 := hall c hcp
      simp [hd] at h2
    rw [if_neg hcond]
  · dsimp only
    have hcond : ¬(ip ++ fp ≠ [] ∧ ip.all Char.isDigit = true ∧ fp.all Char.isDigit = true) := by
      rintro ⟨-, hip, hfp⟩
      simp only [List.all_eq_true] at hip hfp
      rcases List.mem_cons.mp hp with rfl | hp2
      · have h2 := hip c hcp
        simp [hd] at h2
      · have hpe : p = fp := List.mem_singleton.mp hp2
        subst hpe
        have h2 := hfp c hcp
        simp [hd] at h2
    rw [if_neg hcond]

theorem parseExpInt?_eq_none (l : List Char) (c : Char) (hc : c ∈ l)
    (hd : c.isDigit = false) (hm : c ≠ '-') (hp : c ≠ '+') (hus : c ≠ '_') :
    parseExpInt? l = none := by
  have key : ∀ d : List Char, c ∈ d → parseDigitsInt? d = none := by
    intro d hcd
    rw [parseDigitsInt?]
    rw [if_neg]
    rintro ⟨-, hall⟩
    simp only [List.all_eq_true] at hall
    have h2 := hall c (mem_dropUnderscores d c hcd hus)
    simp [hd] at h2
  cases l with
  | nil => cases hc
  | cons a r =>
    rw [parseExpInt?]
    by_cases ha : a = '-'
    · rw [if_pos ha]
      have hcr : c ∈ r := by
        rcases List.mem_cons.mp hc with rfl | h
        · exact absurd ha hm
        · exact h
      rw [key r hcr]
      rfl
    · rw [if_neg ha]
      by_cases hb : a = '+'
      · rw [if_pos hb]
        have hcr : c ∈ r := by
          rcases List.mem_cons.mp hc with rfl | h
          · exact absurd hb hp
          · exact h
        exact key r hcr
      · rw [if_neg hb]
        exact key (a :: r) hc

theorem dropWhile_head_false {α : Type} (p : α → Bool) (l : List α) (a : α)
    (t : List α) (h : l.dropWhile p = a :: t) : p a = false := by
  induction l with
  | nil => cases h
  | cons x xs ih =>
    rw [List.dropWhile_cons] at h
    by_cases hp : p x = true
    · rw [if_pos hp] at h
      exact ih h
    · rw [if_neg hp] at h
      cases h
      simpa using hp

theorem parseMantExp?_eq_none (m : List Char) (c : Char) (hc : c ∈ m)
    (hbad : pyFloatChar c = false) : parseMantExp? (R := R) m = none := by
  obtain ⟨hd, hdot, hmn, hpl, hus, he, hE⟩ := pyFloatChar_false_parts c hbad
  have hcc : c ∈ m.takeWhile (fun c => !(c = 'e' || c = 'E'))
      ∨ c ∈ m.dropWhile (fun c => !(c = 'e' || c = 'E')) := by
    have hsplit := List.takeWhile_append_dropWhile
      (p := fun c => !(c = 'e' || c = 'E')) (l := m)
    exact List.mem_append.mp (by rw [hsplit]; exact hc)
  rw [parseMantExp?]
  cases hrest : m.dropWhile (fun c => !(c = 'e' || c = 'E')) with
  | nil =>
    have hct : c ∈ m.takeWhile (fun c => !(c = 'e' || c = 'E')) := by
      rcases hcc with h | h
      · exact h
      · rw [hrest] at h
        cases h
    exact parseUnsigned?_eq_none _ c hct hd hdot hus
  | cons e0 ex =>
    dsimp only
    have hpe0 := dropWhile_head_false (fun c => !(c = 'e' || c = 'E')) m e0 ex hrest
    have he0 : e0 = 'e' ∨ e0 = 'E' := by
      by_cases h1 : e0 = 'e'
      · exact Or.inl h1
      by_cases h2 : e0 = 'E'
      · exact Or.inr h2
      exfalso
      simp [h1, h2] at hpe0
    rcases hcc with hct | hcr
    · rw [parseUnsigned?_eq_none _ c hct hd hdot hus]
    · rw [hrest] at hcr
      rcases List.mem_cons.mp hcr with rfl | hcx
      · have htrue : pyFloatChar c = true := by
          rcases he0 with rfl | rfl <;> decide
        rw [htrue] at hbad
        cases hbad
      · rw [parseExpInt?_eq_none ex c hcx hd hmn hpl hus]
        cases parseUnsigned? (R := R) (m.takeWhile (fun c => !(c = 'e' || c = 'E'))) <;> rfl

theorem pyNonFinite_true_lower (m : List Char) (h : pyNonFinite m = true) :
    ∀ x ∈ m, lowerChar x ∈ (['i', 'n', 'f', 'a', 't', 'y'] : List Char) := by
  intro x hx
  rw [pyNonFinite] at h
  simp only [Bool.or_eq_true, decide_eq_true_eq] at h
  have hmem : lowerChar x ∈ m.map lowerChar := List.mem_map_of_mem lowerChar hx
  rcases h with (h | h) | h <;> rw [h] at hmem <;>
    simp only [List.mem_cons, List.not_mem_nil, or_false] at hmem
  · rcases hmem with h2 | h2 | h2 <;> rw [h2] <;> decide
  · rcases hmem with h2 | h2 | h2 | h2 | h2 | h2 | h2 | h2 <;> rw [h2] <;> decide
  · rcases hmem with h2 | h2 | h2 <;> rw [h2] <;> decide

theorem pyFloatChar_of_lower (x : Char)
    (h : lowerChar x ∈ (['i', 'n', 'f', 'a', 't', 'y'] : List Char)) :
    pyFloatChar x = true := by
  by_cases h1 : x = 'I'
  · rw [h1]; decide
  by_cases h2 : x = 'N'
  · rw [h2]; decide
  by_cases h3 : x = 'F'
  · rw [h3]; decide
  by_cases h4 : x = 'A'
  · rw [h4]; decide
  by_cases h5 : x = 'T'
  · rw [h5]; decide
  by_cases h6 : x = 'Y'
  · rw [h6]; decide
  have hx : lowerChar x = x := by
    rw [lowerChar, if_neg h1, if_neg h2, if_neg h3, if_neg h4, if_neg h5, if_neg h6]
  rw [hx] at h
  simp only [List.mem_cons, List.not_mem_nil, or_false] at h
  rcases h with rfl | rfl | rfl | rfl | rfl | rfl <;> decide

theorem pyNonFinite_eq_false_of_bad (m : List Char) (c : Char) (hc : c ∈ m)
    (hbad : pyFloatChar c = false) : pyNonFinite m = false := by
  cases hpn : pyNonFinite m with
  | false => rfl
  | true =>
    have h6 := pyNonFinite_true_lower m hpn c hc
    have ht := pyFloatChar_of_lower c h6
    rw [ht] at hbad
    cases hbad

theorem parseSignless?_eq_none (m : List Char) (c : Char) (hc : c ∈ m)
    (hbad : pyFloatChar c = false) : parseSignless? (R := R) m = none := by
  have hnf := pyNonFinite_eq_false_of_bad m c hc hbad
  rw [parseSignless?, if_neg (by rw [hnf]; exact Bool.false_ne_true)]
  exact parseMantExp?_eq_none m c hc hbad

theorem parseFloat?_eq_none (l : List Char) (c : Char) (hc : c ∈ l)
    (hbad : pyFloatChar c = false) (hws : ∀ x ∈ l, x.isWhitespace = false) :
    parseFloat? (R := R) l = none := by
  obtain ⟨hd, hdot, hmn, hpl, hus, he, hE⟩ := pyFloatChar_false_parts c hbad
  rw [parseFloat?, trimChars_eq_self l hws]
  cases l with
  | nil => cases hc
  | cons a r =>
    dsimp only
    by_cases ha : a = '-'
    · rw [if_pos ha]
      have hcr : c ∈ r := by
        rcases List.mem_cons.mp hc with rfl | h
        · exact absurd ha hmn
        · exact h
      rw [parseSignless?_eq_none r c hcr hbad]
      rfl
    · rw [if_neg ha]
      by_cases hb : a = '+'
      · rw [if_pos hb]
        have hcr : c ∈ r := by
          rcases List.mem_cons.mp hc with rfl | h
          · exact absurd hb hpl
          · exact h
        exact parseSignless?_eq_none r c hcr hbad
      · rw [if_neg hb]
        exact parseSignless?_eq_none (a :: r) c hc hbad

theorem parseAngleText_nil (vars : Option (Vars R)) :
    parseAngleText (R := R) [] vars = .num 1 := rfl

theorem parseAngleText_goodName (n : List Char) (hg : goodName n) :
    parseAngleText (R := R) n none = .sym n := by
  rcases hg with ⟨hne, hws, c, hc, halpha, hbad⟩
  rw [parseAngleText, parseFloat?_eq_none n c hc hbad hws]
  dsimp only
  rw [trimChars_eq_self n hws, if_neg hne]

end ParseLemmas

section RenderParse

theorem takeWhile_all {α : Type} (p : α → Bool) (l : List α)
    (h : ∀ x ∈ l, p x = true) : l.takeWhile p = l := by
  induction l with
  | nil => rfl
  | cons a t ih =>
    rw [List.takeWhile_cons, h a (List.mem_cons_self a t),
      ih fun x hx => h x (List.mem_cons_of_mem a hx)]
    rfl

theorem dropWhile_all {α : Type} (p : α → Bool) (l : List α)
    (h : ∀ x ∈ l, p x = true) : l.dropWhile p = [] := by
  induction l with
  | nil => rfl
  | cons a t ih =>
    rw [List.dropWhile_cons, h a (List.mem_cons_self a t),
      if_pos rfl]
    exact ih fun x hx => h x (List.mem_cons_of_mem a hx)

theorem takeWhile_append_all {α : Type} (p : α → Bool) (a b : List α)
    (h : ∀ x ∈ a, p x = true) : (a ++ b).takeWhile p = a ++ b.takeWhile p := by
  induction a with
  | nil => rfl
  | cons x t ih =>
    rw [List.cons_append, List.takeWhile_cons, h x (List.mem_cons_self x t),
      if_pos rfl, ih fun y hy => h y (List.mem_cons_of_mem x hy)]
    rfl

theorem dropWhile_append_all {α : Type} (p : α → Bool) (a b : List α)
    (h : ∀ x ∈ a, p x = true) : (a ++ b).dropWhile p = b.dropWhile p := by
  induction a with
  | nil => rfl
  | cons x t ih =>
    rw [List.cons_append, List.dropWhile_cons, h x (List.mem_cons_self x t),
      if_pos rfl]
    exact ih fun y hy => h y (List.mem_cons_of_mem x hy)

theorem splitOnChar_not_mem (sep : Char) (l : List Char) (h : sep ∉ l) :
    splitOnChar sep l = [l] := by
  induction l with
  | nil => rfl
  | cons c cs ih =>
    have hcs : sep ∉ cs := fun hm => h (List.mem_cons_of_mem c hm)
    have hc : c ≠ sep := fun he => h (he ▸ List.mem_cons_self c cs)
    rw [splitOnChar, ih hcs]
    dsimp only
    rw [if_neg hc]

theorem splitOnChar_append_cons (sep : Char) (b l : List Char) (h : sep ∉ b) :
    splitOnChar sep (b ++ sep :: l) = b :: splitOnChar sep l := by
  induction b with
  | nil =>
    rw [List.nil_append, splitOnChar]
    obtain ⟨f, r, hfr⟩ : ∃ f r, splitOnChar sep l = f :: r := by
      cases hs : splitOnChar sep l with
      | nil => exact absurd hs (splitOnChar_ne_nil sep l)
      | cons f r => exact ⟨f, r, rfl⟩
    rw [hfr]
    dsimp only
    rw [if_pos rfl]
  | cons c b2 ih =>
    have hb2 : sep ∉ b2 := fun hm => h (List.mem_cons_of_mem c hm)
    have hc : c ≠ sep := fun he => h (he ▸ List.mem_cons_self c b2)
    rw [List.cons_append, splitOnChar, ih hb2]
    dsimp only
    rw [if_neg hc]

theorem isDigit_ne (c d : Char) (h : c.isDigit = true) (hd : d.isDigit = false) :
    c ≠ d := by
  rintro rfl
  rw [h] at hd
  cases hd

theorem digitChar_props (k : Nat) :
    (digitChar k).isDigit = true ∧ (digitChar k).isWhitespace = false ∧
      digitChar k ≠ '|' ∧ digitChar k ≠ '@' ∧ digitChar k ≠ '+' ∧ digitChar k ≠ '*' ∧
      digitChar k ≠ 'e' ∧ digitChar k ≠ 'E' ∧ digitChar k ≠ '.' ∧ digitChar k ≠ '-' ∧
      digitChar k ≠ '(' ∧ digitChar k ≠ ')' ∧ digitChar k ≠ '_' := by
  have h : k % 10 < 10 := Nat.mod_lt _ (by norm_num)
  unfold digitChar
  generalize hG : k % 10 = m at h ⊢
  interval_cases m <;> decide

theorem natDigits_shape : ∀ n : Nat, ∀ c ∈ natDigits n, ∃ k, c = digitChar k := by
  intro n
  induction n using Nat.strong_induction_on with
  | _ n ih =>
    intro c hc
    rw [natDigits] at hc
    by_cases h : n < 10
    · rw [if_pos h] at hc
      rcases List.mem_singleton.mp hc with rfl
      exact ⟨n, rfl⟩
    · rw [if_neg h] at hc
      rcases List.mem_append.mp hc with h1 | h1
      · exact ih (n / 10) (Nat.div_lt_self (by omega) (by omega)) c h1
      · rcases List.mem_singleton.mp h1 with rfl
        exact ⟨n % 10, rfl⟩

theorem natDigits_ne_nil (n : Nat) : natDigits n ≠ [] := by
  rw [natDigits]
  by_cases h : n < 10
  · rw [if_pos h]
    simp
  · rw [if_neg h]
    simp

theorem fracDigits4_shape (n : Nat) : ∀ c ∈ fracDigits4 n, ∃ k, c = digitChar k := by
  intro c hc
  simp only [fracDigits4, List.mem_cons, List.not_mem_nil, or_false] at hc
  rcases hc with rfl | rfl | rfl | rfl <;> exact ⟨_, rfl⟩

theorem format4_props {R : Type} [LinearOrderedField R] [FloorRing R] (q : R) :
    ∀ c ∈ format4 q,
      c.isWhitespace = false ∧ c ≠ '|' ∧ c ≠ '@' ∧ c ≠ '+' ∧ c ≠ '*' ∧
        c ≠ 'e' ∧ c ≠ 'E' ∧ c ≠ '_' ∧ (c.isDigit || c = '.' || c = '-') = true := by
  intro c hc
  simp only [format4] at hc
  rcases List.mem_append.mp hc with h | h
  · rcases List.mem_append.mp h with hs | h2
    · by_cases hneg : (⌊q * 10000 + 1 / 2⌋ : ℤ) < 0
      · rw [if_pos hneg] at hs
        rcases List.mem_singleton.mp hs with rfl
        decide
      · rw [if_neg hneg] at hs
        cases hs
    · obtain ⟨k, rfl⟩ := natDigits_shape _ c h2
      obtain ⟨d1, d2, d3, d4, d5, d6, d7, d8, d9, d10, d11, d12, d13⟩ := digitChar_props k
      exact ⟨d2, d3, d4, d5, d6, d7, d8, d13, by rw [d1]; rfl⟩
  · rcases List.mem_cons.mp h with rfl | h3
    · decide
    · obtain ⟨k, rfl⟩ := fracDigits4_shape _ c h3
      obtain ⟨d1, d2, d3, d4, d5, d6, d7, d8, d9, d10, d11, d12, d13⟩ := digitChar_props k
      exact ⟨d2, d3, d4, d5, d6, d7, d8, d13, by rw [d1]; rfl⟩

theorem format4_ne_nil {R : Type} [LinearOrderedField R] [FloorRing R] (q : R) :
    format4 q ≠ [] := by
  intro h
  simp only [format4] at h
  rcases List.append_eq_nil.mp h with ⟨h1, -⟩
  rcases List.append_eq_nil.mp h1 with ⟨-, h3⟩
  exact natDigits_ne_nil _ h3

theorem renderLetters_cons (e : Nat × Pauli) (ls : List (Nat × Pauli)) :
    renderLetters (e :: ls)
      = renderLetter e.2 :: '(' :: (natDigits e.1 ++ ')' :: renderLetters ls) := by
  rw [renderLetters, flatMapL, renderLetters]
  simp [List.append_assoc]

theorem renderLetter_props (p : Pauli) :
    (renderLetter p).isDigit = false ∧ renderLetter p ≠ '.' ∧ renderLetter p ≠ '-' ∧
      renderLetter p ≠ '*' := by
  cases p <;> decide

theorem pauliOfChar_render (p : Pauli) : pauliOfChar (renderLetter p) = some p := by
  cases p <;> rfl

theorem renderLetters_props (ls : List (Nat × Pauli)) :
    ∀ c ∈ renderLetters ls,
      c.isWhitespace = false ∧ c ≠ '|' ∧ c ≠ '@' ∧ c ≠ '+' := by
  intro c hc
  rw [renderLetters, mem_flatMapL] at hc
  rcases hc with ⟨e, -, hce⟩
  rcases List.mem_cons.mp hce with rfl | hce2
  · rcases e with ⟨q0, p0⟩
    dsimp only
    cases p0 <;> decide
  rcases List.mem_cons.mp hce2 with rfl | hce3
  · decide
  rcases List.mem_append.mp hce3 with h4 | h4
  · obtain ⟨k, rfl⟩ := natDigits_shape _ c h4
    obtain ⟨d1, d2, d3, d4, d5, d6, d7, d8, d9, d10, d11, d12, d13⟩ := digitChar_props k
    exact ⟨d2, d3, d4, d5⟩
  · rcases List.mem_singleton.mp h4 with rfl
    decide

theorem pyNonFinite_false_of_digit (m : List Char) (c : Char) (hc : c ∈ m)
    (hd : c.isDigit = true) : pyNonFinite m = false := by
  cases hpn : pyNonFinite m with
  | false => rfl
  | true =>
    have h6 := pyNonFinite_true_lower m hpn c hc
    have hlc : lowerChar c = c := by
      rw [lowerChar, if_neg (isDigit_ne c 'I' hd (by decide)),
        if_neg (isDigit_ne c 'N' hd (by decide)), if_neg (isDigit_ne c 'F' hd (by decide)),
        if_neg (isDigit_ne c 'A' hd (by decide)), if_neg (isDigit_ne c 'T' hd (by decide)),
        if_neg (isDigit_ne c 'Y' hd (by decide))]
    rw [hlc] at h6
    simp only [List.mem_cons, List.not_mem_nil, or_false] at h6
    rcases h6 with rfl | rfl | rfl | rfl | rfl | rfl <;> exact absurd hd (by decide)

theorem dropUnderscores_eq_self (l : List Char) (h : ∀ c ∈ l, c ≠ '_') :
    dropUnderscores l = l := by
  rw [dropUnderscores, List.filter_eq_self]
  intro a ha
  simpa using h a ha

theorem parseSignless?_core {R : Type} [LinearOrderedField R] [FloorRing R] (d k : Nat) :
    ∃ u, parseSignless? (R := R) (natDigits d ++ '.' :: fracDigits4 k) = some u := by
  have hclass : ∀ x ∈ natDigits d ++ '.' :: fracDigits4 k, x.isDigit = true ∨ x = '.' := by
    intro x hx
    rcases List.mem_append.mp hx with h | h
    · obtain ⟨j, rfl⟩ := natDigits_shape d x h
      exact Or.inl (digitChar_props j).1
    · rcases List.mem_cons.mp h with rfl | h2
      · exact Or.inr rfl
      · obtain ⟨j, rfl⟩ := fracDigits4_shape k x h2
        exact Or.inl (digitChar_props j).1
  obtain ⟨c0, cs, hnd⟩ : ∃ c0 cs, natDigits d = c0 :: cs := by
    cases hn : natDigits d with
    | nil => exact absurd hn (natDigits_ne_nil d)
    | cons c0 cs => exact ⟨c0, cs, rfl⟩
  obtain ⟨j0, hj0⟩ := natDigits_shape d c0 (hnd ▸ List.mem_cons_self c0 cs)
  have hc0mem : c0 ∈ natDigits d ++ '.' :: fracDigits4 k :=
    List.mem_append.mpr (Or.inl (hnd ▸ List.mem_cons_self c0 cs))
  have hnf : pyNonFinite (natDigits d ++ '.' :: fracDigits4 k) = false :=
    pyNonFinite_false_of_digit _ c0 hc0mem (by rw [hj0]; exact (digitChar_props j0).1)
  rw [parseSignless?, if_neg (by rw [hnf]; exact Bool.false_ne_true)]
  rw [parseMantExp?]
  have hEfree : ∀ x ∈ natDigits d ++ '.' :: fracDigits4 k,
      (fun c => !(c = 'e' || c = 'E')) x = true := by
    intro x hx
    rcases hclass x hx with hdg | rfl
    · simp [isDigit_ne x 'e' hdg (by decide), isDigit_ne x 'E' hdg (by decide)]
    · decide
  rw [takeWhile_all _ _ hEfree, dropWhile_all _ _ hEfree]
  dsimp only
  rw [parseUnsigned?]
  rw [dropUnderscores_eq_self _ (fun c hcm => by
    rcases hclass c hcm with hdg | rfl
    · exact isDigit_ne c '_' hdg (by decide)
    · decide)]
  have hdot1 : '.' ∉ natDigits d := by
    intro hm
    obtain ⟨j, hj⟩ := natDigits_shape d '.' hm
    exact (digitChar_props j).2.2.2.2.2.2.2.2.1 hj.symm
  have hdot2 : '.' ∉ fracDigits4 k := by
    intro hm
    obtain ⟨j, hj⟩ := fracDigits4_shape k '.' hm
    exact (digitChar_props j).2.2.2.2.2.2.2.2.1 hj.symm
  rw [splitOnChar_append_cons '.' _ _ hdot1, splitOnChar_not_mem '.' _ hdot2]
  dsimp only
  rw [if_pos ?side]
  case side =>
    refine ⟨?_, ?_, ?_⟩
    · rw [hnd]
      simp
    · rw [List.all_eq_true]
      intro x hx
      obtain ⟨j, rfl⟩ := natDigits_shape d x hx
      exact (digitChar_props j).1
    · rw [List.all_eq_true]
      intro x hx
      obtain ⟨j, rfl⟩ := fracDigits4_shape k x hx
      exact (digitChar_props j).1
  exact ⟨_, rfl⟩

theorem parseFloat?_format4 {R : Type} [LinearOrderedField R] [FloorRing R] (q : R) :
    ∃ w, parseFloat? (R := R) (format4 q) = some w := by
  have hws : ∀ x ∈ format4 q, x.isWhitespace = false := fun x hx => (format4_props q x hx).1
  rw [parseFloat?, trimChars_eq_self _ hws]
  simp only [format4]
  by_cases hneg : (⌊q * 10000 + 1 / 2⌋ : ℤ) < 0
  · rw [if_pos hneg, List.singleton_append, List.cons_append]
    dsimp only
    rw [if_pos rfl]
    obtain ⟨u, hu⟩ := parseSignless?_core (R := R)
      ((⌊q * 10000 + 1 / 2⌋ : ℤ).natAbs / 10000) ((⌊q * 10000 + 1 / 2⌋ : ℤ).natAbs % 10000)
    rw [hu]
    exact ⟨-u, rfl⟩
  · rw [if_neg hneg, List.nil_append]
    obtain ⟨c0, cs, hnd⟩ : ∃ c0 cs,
        natDigits ((⌊q * 10000 + 1 / 2⌋ : ℤ).natAbs / 10000) = c0 :: cs := by
      cases hn : natDigits ((⌊q * 10000 + 1 / 2⌋ : ℤ).natAbs / 10000) with
      | nil => exact absurd hn (natDigits_ne_nil _)
      | cons c0 cs => exact ⟨c0, cs, rfl⟩
    obtain ⟨j0, hj0⟩ := natDigits_shape _ c0 (hnd ▸ List.mem_cons_self c0 cs)
    obtain ⟨d1, d2, d3, d4, d5, d6, d7, d8, d9, d10, d11, d12, d13⟩ := digitChar_props j0
    have hcore := parseSignless?_core (R := R)
      ((⌊q * 10000 + 1 / 2⌋ : ℤ).natAbs / 10000) ((⌊q * 10000 + 1 / 2⌋ : ℤ).natAbs % 10000)
    rw [hnd, List.cons_append] at hcore
    rw [hnd, List.cons_append]
    dsimp only
    rw [if_neg (hj0 ▸ d10), if_neg (hj0 ▸ d5)]
    exact hcore

theorem renderLetters_nil : renderLetters ([] : List (Nat × Pauli)) = [] := rfl

theorem digitVal_digitChar (k : Nat) : digitVal (digitChar k) = k % 10 := by
  have h : k % 10 < 10 := Nat.mod_lt _ (by norm_num)
  unfold digitVal digitChar
  generalize hG : k % 10 = m at h ⊢
  interval_cases m <;> decide

theorem natValOf_append (l : List Char) (c : Char) :
    natValOf (l ++ [c]) = 10 * natValOf l + digitVal c := by
  unfold natValOf
  rw [List.foldl_append]
  rfl

theorem natValOf_natDigits : ∀ n : Nat, natValOf (natDigits n) = n := by
  intro n
  induction n using Nat.strong_induction_on with
  | _ n ih =>
    rw [natDigits]
    by_cases h : n < 10
    · rw [if_pos h]
      have h1 : natValOf [digitChar n] = 10 * 0 + digitVal (digitChar n) := rfl
      rw [h1, digitVal_digitChar]
      omega
    · rw [if_neg h, natValOf_append,
        ih (n / 10) (Nat.div_lt_self (by omega) (by omega)), digitVal_digitChar]
      omega

theorem renderLetters_length_le (ls : List (Nat × Pauli)) :
    ls.length ≤ (renderLetters ls).length := by
  induction ls with
  | nil => simp [renderLetters_nil]
  | cons e t ih =>
    rw [renderLetters_cons]
    simp only [List.length_cons, List.length_append]
    omega

theorem parseFactorsAux_render (ls : List (Nat × Pauli)) :
    ∀ fuel : Nat, ls.length < fuel →
      parseFactorsAux fuel (renderLetters ls) = some ls := by
  induction ls with
  | nil =>
    intro fuel hf
    cases fuel with
    | zero => omega
    | succ f => rfl
  | cons e t ih =>
    intro fuel hf
    cases fuel with
    | zero => omega
    | succ f =>
      rcases e with ⟨q0, p0⟩
      rw [renderLetters_cons]
      dsimp only
      rw [parseFactorsAux]
      dsimp only
      rw [pauliOfChar_render]
      dsimp only
      show (match List.dropWhile Char.isDigit (natDigits q0 ++ ')' :: renderLetters t) with
        | ')' :: tail =>
          if List.takeWhile Char.isDigit (natDigits q0 ++ ')' :: renderLetters t) = []
          then none
          else Option.map
            (fun fs =>
              (natValOf
                (List.takeWhile Char.isDigit (natDigits q0 ++ ')' :: renderLetters t)), p0)
                :: fs)
            (parseFactorsAux f tail)
        | x => none) = some ((q0, p0) :: t)
      have hdig : ∀ x ∈ natDigits q0, Char.isDigit x = true := by
        intro x hx
        obtain ⟨j, rfl⟩ := natDigits_shape q0 x hx
        exact (digitChar_props j).1
      have htw : List.takeWhile Char.isDigit (natDigits q0 ++ ')' :: renderLetters t)
          = natDigits q0 := by
        rw [takeWhile_append_all _ _ _ hdig,
          show List.takeWhile Char.isDigit (')' :: renderLetters t) = [] from rfl,
          List.append_nil]
      have hdw : List.dropWhile Char.isDigit (natDigits q0 ++ ')' :: renderLetters t)
          = ')' :: renderLetters t := by
        rw [dropWhile_append_all _ _ _ hdig]
        rw [List.dropWhile_cons, if_neg (by decide : ¬Char.isDigit ')' = true)]
      rw [htw, hdw]
      show (if natDigits q0 = [] then none
        else Option.map (fun fs => (natValOf (natDigits q0), p0) :: fs)
          (parseFactorsAux f (renderLetters t))) = some ((q0, p0) :: t)
      rw [if_neg (natDigits_ne_nil q0),
        ih f (by simp only [List.length_cons] at hf; omega), natValOf_natDigits]
      rfl

theorem renderLetters_numSplit (ls : List (Nat × Pauli)) :
    (renderLetters ls).takeWhile (fun c => c.isDigit || c = '.' || c = '-') = [] ∧
      (renderLetters ls).dropWhile (fun c => c.isDigit || c = '.' || c = '-')
        = renderLetters ls := by
  cases ls with
  | nil => exact ⟨rfl, rfl⟩
  | cons e t =>
    rw [renderLetters_cons]
    rcases e with ⟨q0, p0⟩
    dsimp only
    cases p0 <;> exact ⟨rfl, rfl⟩

theorem stripStar_renderLetters (ls : List (Nat × Pauli)) :
    stripStar (renderLetters ls) = renderLetters ls := by
  cases ls with
  | nil => rfl
  | cons e t =>
    rw [renderLetters_cons]
    rcases e with ⟨q0, p0⟩
    dsimp only
    cases p0 <;> rfl

theorem parseTermChars_render {R : Type} [LinearOrderedField R] [FloorRing R]
    (q : R) (ls : List (Nat × Pauli)) :
    ∃ v, parseTermChars (R := R) (format4 q ++ renderLetters ls) = some (v, ls) := by
  have hnum : ∀ c ∈ format4 q, (c.isDigit || c = '.' || c = '-') = true := by
    intro c hc
    exact (format4_props q c hc).2.2.2.2.2.2.2.2
  obtain ⟨w, hw⟩ := parseFloat?_format4 (R := R) q
  refine ⟨w, ?_⟩
  rw [parseTermChars]
  rw [takeWhile_append_all _ _ _ hnum, dropWhile_append_all _ _ _ hnum,
    (renderLetters_numSplit ls).1, (renderLetters_numSplit ls).2, List.append_nil,
    stripStar_renderLetters]
  rw [if_neg (format4_ne_nil q), hw]
  dsimp only
  rw [parseFactors,
    parseFactorsAux_render ls ((renderLetters ls).length + 1)
      (by have := renderLetters_length_le ls; omega)]
  rfl

theorem parsePauliTerms_render {R : Type} [LinearOrderedField R] [FloorRing R]
    (q : R) (ls : List (Nat × Pauli)) :
    ∃ v, parsePauliTerms (R := R) (format4 q ++ renderLetters ls) = some [(v, ls)] := by
  obtain ⟨v, hv⟩ := parseTermChars_render (R := R) q ls
  refine ⟨v, ?_⟩
  have hplus : '+' ∉ format4 q ++ renderLetters ls := by
    intro hm
    rcases List.mem_append.mp hm with h | h
    · exact (format4_props q _ h).2.2.2.1 rfl
    · exact (renderLetters_props ls _ h).2.2.2 rfl
  have hws : ∀ c ∈ format4 q ++ renderLetters ls, c.isWhitespace = false := by
    intro c hc
    rcases List.mem_append.mp hc with h | h
    · exact (format4_props q c h).1
    · exact (renderLetters_props ls c h).1
  rw [parsePauliTerms, splitOnChar_not_mem '+' _ hplus, List.map_cons, List.map_nil,
    trimChars_eq_self _ hws]
  have hne : (format4 q ++ renderLetters ls).isEmpty = false := by
    have h2 : format4 q ++ renderLetters ls ≠ [] := fun h =>
      format4_ne_nil q (List.append_eq_nil.mp h).1
    simpa using h2
  have hfil : List.filter (fun t => !t.isEmpty) [format4 q ++ renderLetters ls]
      = [format4 q ++ renderLetters ls] := by
    simp [hne]
  rw [hfil, parseTermsList, hv]
  rfl

theorem tokenBody_chars {R : Type} [LinearOrderedField R] [FloorRing R] (t : Token R)
    (hsf : sepFree t.angleText) :
    ∀ c ∈ tokenBody '@' t, c.isWhitespace = false ∧ c ≠ '|' := by
  intro c hc
  rw [tokenBody] at hc
  rcases List.mem_append.mp hc with h | h
  · exact ⟨(hsf c h).1, (hsf c h).2.1⟩
  · rcases List.mem_cons.mp h with rfl | h2
    · exact ⟨by decide, by decide⟩
    · rcases List.mem_append.mp h2 with h3 | h3
      · exact ⟨(format4_props t.coeff c h3).1, (format4_props t.coeff c h3).2.1⟩
      · exact ⟨(renderLetters_props t.letters c h3).1,
          (renderLetters_props t.letters c h3).2.1⟩

theorem fragmentStep_tokenBody {R : Type} [LinearOrderedField R] [FloorRing R]
    (vars : Option (Vars R)) (t : Token R) (hsf : sepFree t.angleText) :
    ∃ g, fragmentStep (R := R) '@' vars (tokenBody '@' t) = .ok (some g) := by
  have hws : ∀ c ∈ tokenBody '@' t, c.isWhitespace = false :=
    fun c hc => (tokenBody_chars t hsf c hc).1
  have hne : tokenBody '@' t ≠ [] := by
    rw [tokenBody]
    intro h
    rcases List.append_eq_nil.mp h with ⟨-, h2⟩
    cases h2
  rw [fragmentStep]
  rw [trimChars_eq_self _ hws, if_neg hne]
  have hat : '@' ∉ t.angleText := fun hm => (hsf _ hm).2.2 rfl
  have hat2 : '@' ∉ format4 t.coeff ++ renderLetters t.letters := by
    intro hm
    rcases List.mem_append.mp hm with h | h
    · exact (format4_props t.coeff _ h).2.2.1 rfl
    · exact (renderLetters_props t.letters _ h).2.2.1 rfl
  rw [tokenBody, splitOnChar_append_cons '@' _ _ hat, splitOnChar_not_mem '@' _ hat2]
  dsimp only
  obtain ⟨v, hv⟩ := parsePauliTerms_render (R := R) t.coeff t.letters
  rw [hv]
  dsimp only
  exact ⟨_, rfl⟩

theorem splitOnChar_flatMap_renderToken {R : Type} [LinearOrderedField R] [FloorRing R]
    (toks : List (Token R)) (h : ∀ t ∈ toks, sepFree t.angleText) :
    splitOnChar '|' (flatMapL (renderToken '|' '@') toks)
      = toks.map (tokenBody '@') ++ [[]] := by
  induction toks with
  | nil => rfl
  | cons t ts ih =>
    rw [flatMapL, renderToken, List.append_assoc, List.singleton_append]
    have hnmem : '|' ∉ tokenBody '@' t := fun hm =>
      (tokenBody_chars t (h t (List.mem_cons_self t ts)) _ hm).2 rfl
    rw [splitOnChar_append_cons '|' _ _ hnmem,
      ih (fun u hu => h u (List.mem_cons_of_mem t hu))]
    rfl

theorem decodeFragments_tokens {R : Type} [LinearOrderedField R] [FloorRing R]
    (vars : Option (Vars R)) (toks : List (Token R))
    (h : ∀ t ∈ toks, sepFree t.angleText) :
    ∃ gs, decodeFragments (R := R) '@' vars (toks.map (tokenBody '@') ++ [[]]) = .ok gs ∧
      gs.length = toks.length := by
  induction toks with
  | nil => exact ⟨[], rfl, rfl⟩
  | cons t ts ih =>
    obtain ⟨g, hg⟩ := fragmentStep_tokenBody vars t (h t (List.mem_cons_self t ts))
    obtain ⟨gs, hgs, hlen⟩ := ih (fun u hu => h u (List.mem_cons_of_mem t hu))
    refine ⟨g :: gs, ?_, by simp [hlen]⟩
    rw [List.map_cons, List.cons_append, decodeFragments, hg]
    dsimp only
    rw [hgs]
    rfl

end RenderParse

/-- Claim C8 (amended): every emitted token arises from exactly one
non-trivial (non-global-phase) Pauli string of some compiled gate's
generator; and, PROVIDED every token's angle text is free of whitespace
and of both separators, decoding the emitted string itself with no
variable substitution succeeds and yields a circuit with exactly one gate
per token.  Without the proviso this fails: a symbolic variable name
containing the gate separator makes decode of the emitted string raise
(see the counterexample). -/
theorem claim_C8_token_correspondence (C : QCircuit ℝ) (V : Option (Vars ℝ)) :
    (∀ t ∈ encode Real.pi C V,
        ∃ g ∈ (compile Real.pi C).gates, ∃ ps ∈ g.generator, ps.letters ≠ [] ∧
          t = encode_paulistring Real.pi ps (resolveAngle (gateAngleOf g) V)) ∧
      ((∀ t ∈ encode Real.pi C V, sepFree t.angleText) →
        ∃ gs, decodeChars (R := ℝ) '|' '@'
            (flatMapL (renderToken '|' '@') (encode Real.pi C V)) none = .ok ⟨gs⟩ ∧
          gs.length = (encode Real.pi C V).length) := by
  constructor
  · intro t ht
    rw [encode, mem_flatMapL] at ht
    rcases ht with ⟨g, hg, htg⟩
    rcases List.mem_map.mp htg with ⟨ps, hps, rfl⟩
    rcases List.mem_filter.mp hps with ⟨hmem, hne⟩
    refine ⟨g, hg, ps, hmem, ?_, rfl⟩
    simpa using hne
  · intro hsf
    obtain ⟨gs, hgs, hlen⟩ := decodeFragments_tokens (R := ℝ) none (encode Real.pi C V) hsf
    refine ⟨gs, ?_, hlen⟩
    rw [decodeChars, splitOnChar_flatMap_renderToken _ hsf, hgs]
    rfl

theorem claim_C8_witness :
    ∃ gs, decodeChars (R := ℝ) '|' '@'
        (flatMapL (renderToken '|' '@')
          (encode Real.pi ⟨[⟨"Rz", [0], [], some (Angle.num 1),
            [⟨(1 : ℝ), [(0, Pauli.Z)]⟩]⟩]⟩ none)) none = .ok ⟨gs⟩ ∧
      gs.length = (encode Real.pi (⟨[⟨"Rz", [0], [], some (Angle.num 1),
        [⟨(1 : ℝ), [(0, Pauli.Z)]⟩]⟩]⟩ : QCircuit ℝ) none).length := by
  apply (claim_C8_token_correspondence
    ⟨[⟨"Rz", [0], [], some (Angle.num 1), [⟨(1 : ℝ), [(0, Pauli.Z)]⟩]⟩]⟩ none).2
  intro t ht
  have hE : encode Real.pi (⟨[⟨"Rz", [0], [], some (Angle.num 1),
      [⟨(1 : ℝ), [(0, Pauli.Z)]⟩]⟩]⟩ : QCircuit ℝ) none
      = [⟨[], fix_periodicity Real.pi (1 * 1), [(0, Pauli.Z)]⟩] := rfl
  rw [hE] at ht
  rcases List.mem_singleton.mp ht with rfl
  intro c hc
  cases hc

/-- Counterexample to the unamended claim C8: one token is emitted for a
gate whose symbolic angle name contains the gate separator, yet decoding
the emitted string fails with a field-count error instead of producing a
one-gate circuit. -/
theorem claim_C8_counterexample :
    (encode Real.pi (⟨[⟨"Rx", [0], [], some (Angle.sym ['x', '|', 'y']),
        [⟨(1 : ℝ), [(0, Pauli.X)]⟩]⟩]⟩ : QCircuit ℝ) none).length = 1 ∧
      decodeChars (R := ℝ) '|' '@'
        (flatMapL (renderToken '|' '@')
          (encode Real.pi (⟨[⟨"Rx", [0], [], some (Angle.sym ['x', '|', 'y']),
            [⟨(1 : ℝ), [(0, Pauli.X)]⟩]⟩]⟩ : QCircuit ℝ) none)) none
        = Except.error (DecodeError.fieldCount ['x']) := by
  have hE : encode Real.pi (⟨[⟨"Rx", [0], [], some (Angle.sym ['x', '|', 'y']),
      [⟨(1 : ℝ), [(0, Pauli.X)]⟩]⟩]⟩ : QCircuit ℝ) none
      = [⟨['x', '|', 'y'], fix_periodicity Real.pi 1, [(0, Pauli.X)]⟩] := rfl
  constructor
  · rw [hE]
    rfl
  · rw [hE]
    rw [show flatMapL (renderToken '|' '@')
        [(⟨['x', '|', 'y'], fix_periodicity Real.pi 1, [(0, Pauli.X)]⟩ : Token ℝ)]
        = renderToken '|' '@' ⟨['x', '|', 'y'], fix_periodicity Real.pi 1, [(0, Pauli.X)]⟩
          ++ [] from rfl,
      List.append_nil, renderToken, tokenBody]
    dsimp only
    simp only [List.cons_append, List.nil_append]
    rw [decodeChars]
    cases hT : splitOnChar '|' ('y' :: '@' ::
        ((format4 (R := ℝ) (fix_periodicity Real.pi 1)
          ++ renderLetters [(0, Pauli.X)]) ++ ['|'])) with
    | nil => exact absurd hT (splitOnChar_ne_nil _ _)
    | cons f rest =>
      have h1 : splitOnChar '|' ('|' :: 'y' :: '@' ::
          ((format4 (R := ℝ) (fix_periodicity Real.pi 1)
            ++ renderLetters [(0, Pauli.X)]) ++ ['|']))
          = [] :: f :: rest := by
        rw [splitOnChar, hT]
        dsimp only
        rw [if_pos rfl]
      have h2 : splitOnChar '|' ('x' :: '|' :: 'y' :: '@' ::
          ((format4 (R := ℝ) (fix_periodicity Real.pi 1)
            ++ renderLetters [(0, Pauli.X)]) ++ ['|']))
          = ['x'] :: f :: rest := by
        rw [splitOnChar, h1]
        dsimp only
        rw [if_neg (by decide : ¬('x' = '|'))]
      rw [h2, decodeFragments,
        show fragmentStep (R := ℝ) '@' none ['x']
          = .error (DecodeError.fieldCount ['x']) from rfl]
      rfl

section RoundTrip

theorem encode_eq_map {R : Type} [LinearOrderedField R] [FloorRing R] (pi : R)
    (C : QCircuit R) (vars : Option (Vars R)) :
    encode pi C vars = (encodedPairs pi C).map
      (fun pr => encode_paulistring pi pr.1 (resolveAngle pr.2 vars)) := by
  rw [encode, encodedPairs, map_flatMapL]
  congr 1
  funext g
  rw [List.map_map]
  rfl

theorem roundTrip_pointwise (V : Option (Vars ℝ)) (pr : PauliString ℝ × Angle ℝ)
    (hok : angleOk pr.2) :
    roundTripMatch Real.pi V
      (ExpPauli
        ⟨(encode_paulistring Real.pi pr.1 (resolveAngle pr.2 V)).coeff,
          (encode_paulistring Real.pi pr.1 (resolveAngle pr.2 V)).letters⟩
        (parseAngleText (encode_paulistring Real.pi pr.1 (resolveAngle pr.2 V)).angleText
          none))
      pr := by
  rcases pr with ⟨ps, a⟩
  cases hev : evalAngle a V with
  | some r =>
    have hres : resolveAngle a V = .num r := by rw [resolveAngle, hev]
    rw [roundTripMatch]
    dsimp only
    rw [hev]
    rw [hres]
    dsimp only [encode_paulistring]
    rw [parseAngleText_nil]
    refine ⟨(1, ⟨fix_periodicity Real.pi (ps.coeff * r), sortLetters ps.letters⟩), rfl, ?_, ?_⟩
    · exact sortLetters_perm ps.letters
    · rcases cong4_fix Real.pi (ps.coeff * r) Real.pi_pos with ⟨k, hk⟩
      refine ⟨k, ?_⟩
      dsimp only
      rw [one_mul]
      rw [mul_comm r ps.coeff]
      exact hk
  | none =>
    have hres : resolveAngle a V = .sym (extractName a) := by rw [resolveAngle, hev]
    have hgn : goodName (extractName a) := by
      cases a with
      | num r => rw [evalAngle] at hev; cases hev
      | sym n => exact hok
      | scaled c n => exact hok
    rw [roundTripMatch]
    dsimp only
    rw [hev]
    rw [hres]
    generalize hn : extractName a = n at hgn ⊢
    dsimp only [encode_paulistring, extractName]
    rw [parseAngleText_goodName n hgn]
    refine ⟨rfl, ⟨fix_periodicity Real.pi ps.coeff, sortLetters ps.letters⟩, rfl,
      sortLetters_perm ps.letters, cong4_fix Real.pi ps.coeff Real.pi_pos⟩

end RoundTrip

/-- Claim C1 (amended): decode of encode, token for token: every gate
whose angle was numerically resolved by the environment decodes to an
exponentiated-Pauli gate operator-equivalent (same letters, effective
angle congruent modulo 4π) to the corresponding compiled Pauli string with
the environment substituted; every gate whose angle remained symbolic
decodes to a gate carrying the extracted variable name symbolically —
provided symbolic variable names are non-empty, whitespace-free, and do
not parse as decimal numerals. -/
theorem claim_C1_roundtrip (C : QCircuit ℝ) (V : Option (Vars ℝ))
    (hok : ∀ g ∈ (compile Real.pi C).gates, angleOk (gateAngleOf g)) :
    List.Forall₂ (roundTripMatch Real.pi V)
      (decodeTokens (encode Real.pi C V) none).gates
      (encodedPairs Real.pi C) := by
  rw [decodeTokens]
  rw [encode_eq_map, List.map_map]
  apply forall₂_map_self
  intro pr hpr
  have hok2 : angleOk pr.2 := by
    rw [encodedPairs, mem_flatMapL] at hpr
    rcases hpr with ⟨g, hg, hpg⟩
    rcases List.mem_map.mp hpg with ⟨ps, -, rfl⟩
    exact hok g hg
  exact roundTrip_pointwise V pr hok2

/-- Witness for the amended claim C1 at a concrete one-gate circuit with
the well-formed symbolic angle a. -/
theorem claim_C1_witness :
    (∀ g ∈ (compile Real.pi
          (⟨[⟨"Ry", [1], [], some (Angle.sym ['q']), [⟨1, [(1, Pauli.Y)]⟩]⟩]⟩ :
            QCircuit ℝ)).gates,
        angleOk (gateAngleOf g)) ∧
      List.Forall₂ (roundTripMatch Real.pi (none : Option (Vars ℝ)))
        (decodeTokens
          (encode Real.pi
            ⟨[⟨"Ry", [1], [], some (Angle.sym ['q']), [⟨1, [(1, Pauli.Y)]⟩]⟩]⟩ none)
          none).gates
        (encodedPairs Real.pi
          ⟨[⟨"Ry", [1], [], some (Angle.sym ['q']), [⟨1, [(1, Pauli.Y)]⟩]⟩]⟩) := by
  have hne : lowerStr "Ry" ≠ "h" := by decide
  have hcg : (compile Real.pi
      (⟨[⟨"Ry", [1], [], some (Angle.sym ['q']), [⟨1, [(1, Pauli.Y)]⟩]⟩]⟩ :
        QCircuit ℝ)).gates
      = [⟨"Ry", [1], [], some (Angle.sym ['q']), [⟨1, [(1, Pauli.Y)]⟩]⟩] := by
    rw [compile_gates]
    dsimp only [flatMapL]
    rw [if_neg hne]
    simp
  have h : ∀ g ∈ (compile Real.pi
      (⟨[⟨"Ry", [1], [], some (Angle.sym ['q']), [⟨1, [(1, Pauli.Y)]⟩]⟩]⟩ :
        QCircuit ℝ)).gates, angleOk (gateAngleOf g) := by
    intro g hg
    rw [hcg] at hg
    rcases List.mem_singleton.mp hg with rfl
    exact (by unfold goodName; decide : goodName ['q'])
  exact ⟨h, claim_C1_roundtrip _ none h⟩

/-- Counterexample to claim C1 as stated: the symbolic branch fails for a
variable named 2, because decode first tries to parse the angle field as a
number; the gate's angle remained symbolic at encode time (no environment
was supplied), yet it decodes to the numeric angle 2.0 rather than to a
gate carrying the same symbolic angle expression. -/
theorem claim_C1_counterexample :
    (decodeTokens
        (encode Real.pi
          (⟨[⟨"Rx", [0], [], some (Angle.sym ['2']), [⟨1, [(0, Pauli.X)]⟩]⟩]⟩ :
            QCircuit ℝ) none)
        none).gates.map Gate.parameter
      = [some (Angle.num (2 : ℝ))] := by
  have hne : lowerStr "Rx" ≠ "h" := by decide
  have hcg : (compile Real.pi
      (⟨[⟨"Rx", [0], [], some (Angle.sym ['2']), [⟨1, [(0, Pauli.X)]⟩]⟩]⟩ :
        QCircuit ℝ)).gates
      = [⟨"Rx", [0], [], some (Angle.sym ['2']), [⟨1, [(0, Pauli.X)]⟩]⟩] := by
    rw [compile_gates]
    dsimp only [flatMapL]
    rw [if_neg hne]
    simp
  have henc : encode Real.pi
      (⟨[⟨"Rx", [0], [], some (Angle.sym ['2']), [⟨1, [(0, Pauli.X)]⟩]⟩]⟩ :
        QCircuit ℝ) none
      = [⟨['2'], fix_periodicity Real.pi 1, sortLetters [(0, Pauli.X)]⟩] := by
    rw [encode, hcg]
    rfl
  have hf : parseFloat? (R := ℝ) ['2'] = some ((natValOf ['2'] : ℕ) : ℝ) := rfl
  have hparse : parseAngleText (R := ℝ) ['2'] none = Angle.num ((natValOf ['2'] : ℕ) : ℝ) := by
    rw [parseAngleText, hf]
  rw [henc]
  dsimp only [decodeTokens, ExpPauli, List.map]
  rw [hparse]
  have hnv : natValOf ['2'] = 2 := by decide
  have : ((natValOf ['2'] : ℕ) : ℝ) = 2 := by rw [hnv]; norm_num
  rw [this]

end GenEnc
